import Mathlib

/-!
Verification of the staffing-coverage core of the Montana CS roster tool
(source: `src/components/ui/slider.tsx`).

JavaScript strings are modelled as `List Char` (code-unit sequences); the
JS relational operators `<` / `>` on strings compare code units
lexicographically, which `ltL` below implements structurally.  JS numbers
that the core uses as integers (minutes-of-day, counts, indices) are
modelled as `Int`/`Nat`; the real-valued forecast arithmetic (floats in
JS) is idealised as exact rational arithmetic over `ℚ`.
-/

namespace Montana

/-! ### Calendar dates

The source stores dates as ISO `YYYY-MM-DD` strings and does day
arithmetic with the JS `Date` object (`addDaysISO`).  We model a date
string by parsing it into a `(year, month, day)` triple and implement the
calendar-day successor with Gregorian month lengths, which is the
behaviour of `d.setDate(d.getDate() + days)` for in-range dates. -/

/-- A JS string, as its list of code units. -/
abbrev Str := List Char

/-- Code-unit lexicographic strict order on strings: the semantics of the
JS `<` operator on strings, used by `compareISO` in the source. -/
def ltL : Str → Str → Bool
  | [], [] => false
  | [], _ :: _ => true
  | _ :: _, [] => false
  | a :: as, b :: bs =>
    if a.toNat < b.toNat then true
    else if b.toNat < a.toNat then false
    else ltL as bs

/-- The source's `compareISO(a, b)`: `a < b ? -1 : a > b ? 1 : 0` on JS
strings (valid for ISO dates because `YYYY-MM-DD` sorts lexicographically
in date order). -/
def compareISO (a b : Str) : Int :=
  if ltL a b then -1 else if ltL b a then 1 else 0

/-- The decimal digit character for `n < 10`. -/
def digitChar (n : Nat) : Char := Char.ofNat (48 + n)

/-- Is `c` one of the characters `0`..`9`? -/
def isDigitB (c : Char) : Bool := decide (48 ≤ c.toNat ∧ c.toNat ≤ 57)

/-- Two-digit zero-padded decimal rendering (for `n ≤ 99`). -/
def pad2 (n : Nat) : Str := [digitChar (n / 10), digitChar (n % 10)]

/-- Four-digit zero-padded decimal rendering (for `n ≤ 9999`). -/
def pad4 (n : Nat) : Str :=
  [digitChar (n / 1000), digitChar (n / 100 % 10), digitChar (n / 10 % 10), digitChar (n % 10)]

/-- Render a `(y, m, d)` triple as an ISO `YYYY-MM-DD` string. -/
def fmtISO (y m d : Nat) : Str := pad4 y ++ '-' :: (pad2 m ++ '-' :: pad2 d)

/-- Numeric value of a digit character. -/
def digitVal (c : Char) : Nat := c.toNat - 48

/-- Parse a strict `YYYY-MM-DD` string into its numeric components. -/
def parseISO (s : Str) : Option (Nat × Nat × Nat) :=
  match s with
  | [y1, y2, y3, y4, c1, m1, m2, c2, d1, d2] =>
    if c1 = '-' ∧ c2 = '-' ∧
        ([y1, y2, y3, y4, m1, m2, d1, d2].all isDigitB) = true then
      some (((digitVal y1 * 10 + digitVal y2) * 10 + digitVal y3) * 10 + digitVal y4,
        digitVal m1 * 10 + digitVal m2, digitVal d1 * 10 + digitVal d2)
    else none
  | _ => none

/-- Gregorian leap-year rule (the rule behind the JS `Date` rollover). -/
def isLeap (y : Nat) : Bool := decide (y % 4 = 0 ∧ (y % 100 ≠ 0 ∨ y % 400 = 0))

/-- Number of days in month `m` of year `y`. -/
def daysInMonth (y m : Nat) : Nat :=
  if m = 2 then (if isLeap y then 29 else 28)
  else if m = 4 ∨ m = 6 ∨ m = 9 ∨ m = 11 then 30 else 31

/-- A well-formed calendar date (year capped so that the successor still
formats as a 4-digit year). -/
def validDate (y m d : Nat) : Bool :=
  decide (1 ≤ y ∧ y ≤ 9998 ∧ 1 ≤ m ∧ m ≤ 12 ∧ 1 ≤ d ∧ d ≤ daysInMonth y m)

/-- Calendar-day successor with month/year rollover. -/
def nextDay : Nat × Nat × Nat → Nat × Nat × Nat
  | (y, m, d) =>
    if d < daysInMonth y m then (y, m, d + 1)
    else if m < 12 then (y, m + 1, 1) else (y + 1, 1, 1)

/-- Does `s` parse as a well-formed ISO date? -/
def validISO (s : Str) : Bool :=
  match parseISO s with
  | some (y, m, d) => validDate y m d
  | none => false

/-- The source's `addDaysISO(iso, days)` (`Date`-based calendar-correct
day arithmetic), for non-negative day counts; the source only ever calls
it with `days = 1`.  On a string that is not a date the JS original
throws; we return the input unchanged (the fallback is never exercised
under the validity hypotheses of the theorems below). -/
def addDaysISO (s : Str) (days : Nat) : Str :=
  match parseISO s with
  | some t =>
    let t' := nextDay^[days] t
    fmtISO t'.1 t'.2.1 t'.2.2
  | none => s

/-- The source's `withinRange(date, start, end)`:
`compareISO(start, date) <= 0 && compareISO(date, end) <= 0`. -/
def withinRange (date s e : Str) : Bool :=
  decide (compareISO s date ≤ 0 ∧ compareISO date e ≤ 0)

/-! ### Data model

`Weekday`, `DayBlock`, `Agent`, `Roster` and `Vacations` from the
CONSTANTS & TYPES section of the source.  JS objects used as string-keyed
records are modelled as association lists with JS semantics: lookup finds
the unique binding, assignment replaces it in place (or appends a fresh
binding), `delete` removes it. -/

/-- The 7 weekday labels, in the source's canonical order
`{Sat,Sun,Mon,Tue,Wed,Thu,Fri}`. -/
inductive Weekday where
  | saturday | sunday | monday | tuesday | wednesday | thursday | friday
deriving DecidableEq, Repr, Fintype

/-- `WEEKDAYS` in the source's canonical iteration order. -/
def WEEKDAYS : List Weekday :=
  [.saturday, .sunday, .monday, .tuesday, .wednesday, .thursday, .friday]

/-- The label string of a weekday (the map key / CSV value). -/
def weekdayStr : Weekday → Str
  | .saturday => "Saturday".data
  | .sunday => "Sunday".data
  | .monday => "Monday".data
  | .tuesday => "Tuesday".data
  | .wednesday => "Wednesday".data
  | .thursday => "Thursday".data
  | .friday => "Friday".data

/-- A per-agent/weekday working block (`interface DayBlock`). -/
structure DayBlock where
  active : Bool
  startMin : Int
  endMin : Int
  breakStartMin : Option Int := none
  breakMins : Option Int := none
deriving DecidableEq, Repr

/-- Agent proficiency level. -/
inductive Level where
  | junior | mid | senior
deriving DecidableEq, Repr

/-- Break preference (`"none" | "60"`). -/
inductive BreakPref where
  | noBreak | sixty
deriving DecidableEq, Repr

/-- An agent record (`interface Agent`). -/
structure Agent where
  name : Str
  country : Str
  remote : Bool
  level : Level
  fridayAllowed : Bool
  breakPref : BreakPref
deriving DecidableEq, Repr

/-- An inclusive vacation date range (`{start, end}`; the source's `end`
field is a Lean keyword, rendered `endD`). -/
structure VacationRange where
  start : Str
  endD : Str
deriving DecidableEq, Repr

/-- JS object property read `m[k]` (association-list lookup). -/
def getKey {κ β : Type} [DecidableEq κ] : List (κ × β) → κ → Option β
  | [], _ => none
  | (k, v) :: t, q => if k = q then some v else getKey t q

/-- JS object property write `m[k] = v` (replace the binding in place, or
append a fresh one). -/
def setKey {κ β : Type} [DecidableEq κ] : List (κ × β) → κ → β → List (κ × β)
  | [], q, v => [(q, v)]
  | (k, w) :: t, q, v => if k = q then (q, v) :: t else (k, w) :: setKey t q v

/-- JS `delete m[k]`. -/
def delKey {κ β : Type} [DecidableEq κ] (m : List (κ × β)) (q : κ) : List (κ × β) :=
  m.filter (fun p => decide (p.1 ≠ q))

/-- `type Roster = Record<string, Record<Weekday, DayBlock>>`. -/
abbrev Roster := List (Str × List (Weekday × DayBlock))

/-- `type Vacations = Record<string, Array<{start, end}>>`. -/
abbrev Vacations := List (Str × List VacationRange)

/-- The optional-chain read `roster[name]?.[day]` used by the coverage
loop. -/
def rosterLookup (roster : Roster) (name : Str) (day : Weekday) : Option DayBlock :=
  match getKey roster name with
  | some week => getKey week day
  | none => none

/-- `DEFAULT_DAY`: active 09:00–17:00 with a 60-minute break at 13:00. -/
def DEFAULT_DAY : DayBlock :=
  { active := true, startMin := 9 * 60, endMin := 17 * 60,
    breakStartMin := some (13 * 60), breakMins := some 60 }

/-- JS `x || 0` on an optional number field. -/
def jsOr0 (o : Option Int) : Int := o.getD 0

/-! ### Coverage engine (`halfHourCoverage`) -/

/-- Overlap in minutes of the block's working window with bucket `k`:
`Math.max(0, Math.min(blk.endMin, he) - Math.max(blk.startMin, hs))`. -/
def bucketWork (blk : DayBlock) (k : Nat) : Int :=
  max 0 (min blk.endMin ((k + 1 : Nat) * 30) - max blk.startMin ((k : Nat) * 30))

/-- Overlap in minutes of the break window with bucket `k` (0 when the
block has no positive break, mirroring the
`(blk.breakMins || 0) > 0 && blk.breakStartMin !== undefined` guard). -/
def bucketBrk (blk : DayBlock) (k : Nat) : Int :=
  if jsOr0 blk.breakMins > 0 then
    match blk.breakStartMin with
    | some bs =>
      max 0 (min (bs + jsOr0 blk.breakMins) ((k + 1 : Nat) * 30) - max bs ((k : Nat) * 30))
    | none => 0
  else 0

/-- The per-bucket test `work - brk > 0` of the coverage loop. -/
def contributes (blk : DayBlock) (k : Nat) : Bool :=
  decide (bucketWork blk k - bucketBrk blk k > 0)

/-- The 48-bucket 0/1 indicator vector a single active block adds to
`cov`. -/
def blockVector (blk : DayBlock) : List Nat :=
  (List.range 48).map (fun k => if contributes blk k then 1 else 0)

/-- The source's `isAgentOnVacation(agent, isoDate, vacations)`. -/
def isAgentOnVacation (agent : Str) (isoDate : Str) (vacations : Vacations) : Bool :=
  ((getKey vacations agent).getD []).any (fun r => withinRange isoDate r.start r.endD)

/-- What one agent adds to the coverage array: the zero vector when the
agent is on vacation, has no block for the weekday, or the block is
inactive (the three `continue` paths), otherwise the block's indicator
vector. -/
def agentCoverageVector (roster : Roster) (day : Weekday) (dateISO : Str)
    (vacations : Vacations) (a : Agent) : List Nat :=
  if isAgentOnVacation a.name dateISO vacations then List.replicate 48 0
  else
    match rosterLookup roster a.name day with
    | some blk => if blk.active then blockVector blk else List.replicate 48 0
    | none => List.replicate 48 0

/-- The source's `halfHourCoverage(roster, agents, day, dateISO,
vacations)`: each agent's loop iteration increments `cov[k]` exactly when
its indicator vector is 1 at `k`, so the loop is the fold of pointwise
addition over the agents. -/
def halfHourCoverage (roster : Roster) (agents : List Agent) (day : Weekday)
    (dateISO : Str) (vacations : Vacations) : List Nat :=
  agents.foldl
    (fun cov a => List.zipWith (· + ·) cov (agentCoverageVector roster day dateISO vacations a))
    (List.replicate 48 0)

/-- The roster-table read `roster[a.name]?.[selectedDay] ?? DEFAULT_DAY`
(the consuming code that resolves a missing weekday to the default
block). -/
def resolveDisplayBlock (roster : Roster) (name : Str) (day : Weekday) : DayBlock :=
  (rosterLookup roster name day).getD DEFAULT_DAY

/-- Concrete block of the spec's coverage example: 09:00–17:00 with a
60-minute break at 13:00. -/
def exampleBlock : DayBlock :=
  { active := true, startMin := 540, endMin := 1020,
    breakStartMin := some 780, breakMins := some 60 }

/-- A concrete agent used by the example theorems. -/
def exampleAgent : Agent :=
  { name := "Alice".data, country := "SA".data, remote := true,
    level := .junior, fridayAllowed := true, breakPref := .sixty }

/-- A one-agent roster holding `exampleBlock` on Monday. -/
def exampleRoster : Roster := [("Alice".data, [(Weekday.monday, exampleBlock)])]

/-- A second concrete agent (no roster entry anywhere). -/
def bobAgent : Agent :=
  { name := "Bob".data, country := "SA".data, remote := true,
    level := .junior, fridayAllowed := true, breakPref := .sixty }

/-! ### Vacation interval store -/

/-- `a` sorts no later than `b` under the JS comparator
`(a, b) => compareISO(a.start, b.start)` (comparator value ≤ 0). -/
def rleStart (a b : VacationRange) : Prop := ltL b.start a.start = false

instance rleStartDec : DecidableRel rleStart := fun a b => by
  unfold rleStart
  infer_instance

/-- `ranges.slice().sort((a, b) => compareISO(a.start, b.start))`: JS
`Array.sort` is a stable comparator sort, modelled by insertion sort on
the comparator's non-strict order. -/
def sortRanges (l : List VacationRange) : List VacationRange :=
  List.insertionSort rleStart l

/-- The left-to-right sweep of `mergeRanges`: `cur` is the mutable last
element of `out`; a following range starting on or before
`addDaysISO(cur.end, 1)` is absorbed (extending `cur.end` when its end is
larger), otherwise `cur` is emitted and the sweep continues from the new
range. -/
def mergeSweep (cur : VacationRange) : List VacationRange → List VacationRange
  | [] => [cur]
  | r :: rs =>
    if compareISO r.start (addDaysISO cur.endD 1) ≤ 0 then
      mergeSweep ⟨cur.start, if 0 < compareISO r.endD cur.endD then r.endD else cur.endD⟩ rs
    else cur :: mergeSweep r rs

/-- The source's `mergeRanges`: sort by start date, then sweep, merging
overlapping-or-adjacent ranges. -/
def mergeRanges (ranges : List VacationRange) : List VacationRange :=
  if ranges.length ≤ 1 then sortRanges ranges
  else
    match sortRanges ranges with
    | [] => []
    | r :: rs => mergeSweep r rs

/-- The source's `addVacationRange` handler: a silent no-op when a field
is empty, a validation `alert` (returned as the second component) with the
store untouched when `start > end`, otherwise append-and-remerge of the
agent's range list.  -/
def addVacationRange (vacations : Vacations) (agentName startDate endDate : Str) :
    Vacations × Option Str :=
  if agentName = [] ∨ startDate = [] ∨ endDate = [] then (vacations, none)
  else if 0 < compareISO startDate endDate then
    (vacations, some "End date must be on or after start date.".data)
  else
    (setKey vacations agentName
      (mergeRanges (((getKey vacations agentName).getD []) ++ [⟨startDate, endDate⟩])),
      none)

/-- The source's `removeRange(name, idx)`: splice out position `idx`; if
the list becomes empty delete the agent's key entirely. -/
def removeRange (vacations : Vacations) (name : Str) (idx : Nat) : Vacations :=
  let list := ((getKey vacations name).getD []).eraseIdx idx
  if list = [] then delKey vacations name else setKey vacations name list

/-- The source's `clearAgent(name)`. -/
def clearAgent (vacations : Vacations) (name : Str) : Vacations :=
  delKey vacations name

/-- A well-formed stored range: both endpoints are valid ISO dates and
`start ≤ end`. -/
def validRange (r : VacationRange) : Bool :=
  validISO r.start && validISO r.endD && decide (compareISO r.start r.endD ≤ 0)

/-- `B` starts strictly after the day following `A`'s end — the negation
of the sweep's merge condition, i.e. `A` and `B` neither overlap nor
touch. -/
def gapOrdered (A B : VacationRange) : Prop :=
  0 < compareISO B.start (addDaysISO A.endD 1)

/-- The invariant of a stored per-agent range list: well-formed ranges,
pairwise separated by more than one day. -/
def mergedInv (l : List VacationRange) : Prop :=
  (∀ r ∈ l, validRange r = true) ∧ l.Pairwise gapOrdered

/-- The store invariant: every agent's stored list is merged. -/
def storeInv (vacs : Vacations) : Prop := ∀ p ∈ vacs, mergedInv p.2

/-- C1's stated shape of a stored list: sorted by start date, pairwise
non-overlapping (each range ends strictly before every later range
starts) and pairwise non-adjacent. -/
def rangesSortedDisjoint (l : List VacationRange) : Prop :=
  l.Pairwise (fun A B => compareISO A.start B.start ≤ 0) ∧
    l.Pairwise (fun A B => compareISO A.endD B.start < 0) ∧
    l.Pairwise gapOrdered

/-- A concrete two-range store used by witnesses. -/
def vacExample : Vacations :=
  [("A".data, [⟨"2024-06-05".data, "2024-06-10".data⟩,
    ⟨"2024-06-12".data, "2024-06-15".data⟩])]

/-! ### Demand & requirement engine

The forecast arithmetic is floating point in JS; it is idealised here as
exact rational arithmetic. -/

/-- `HOURLY_LOAD_PCT_DEFAULT` — the Montana hourly load profile. -/
def HOURLY_LOAD_PCT_DEFAULT : List ℚ :=
  [3.0, 1.5, 1.0, 0.8, 0.8, 0.9, 1.2, 2.0,
   3.5, 4.0, 5.0, 6.0, 6.5, 6.8, 7.0, 7.2,
   7.0, 6.5, 6.0, 5.0, 4.0, 3.0, 2.0, 1.5]

/-- `loadPct48`: `arr.flatMap(v => [v / 2, v / 2])` — split each hourly
percentage evenly into its two half-hour buckets. -/
def loadPct48 (hourly : List ℚ) : List ℚ :=
  hourly.flatMap (fun v => [v / 2, v / 2])

/-- The JS `x || 1` guard on the profile sum: a zero sum falls back
to 1. -/
def sumGuard (s : ℚ) : ℚ := if s = 0 then 1 else s

/-- `demand48`: `loadPct48.map(p => basePerDay * (p / sum))` with
`sum = loadPct48.reduce((a, b) => a + b, 0) || 1`. -/
def demand48 (hourly : List ℚ) (basePerDay : ℚ) : List ℚ :=
  (loadPct48 hourly).map
    (fun p => basePerDay * (p / sumGuard ((loadPct48 hourly).sum)))

/-- `required48`:
`demand48.map(v30 => Math.ceil(v30 * ahtMin / Math.max(0.1, 30 * occupancy)) + serviceBuffer)`. -/
def required48 (hourly : List ℚ) (basePerDay ahtMin occupancy : ℚ)
    (serviceBuffer : ℤ) : List ℤ :=
  (demand48 hourly basePerDay).map
    (fun v30 => ⌈v30 * ahtMin / max (0.1 : ℚ) (30 * occupancy)⌉ + serviceBuffer)

/-- A sum-100 profile with its 7.2% peak at hour 15, used as the C7
witness input. -/
def peakProfile : List ℚ :=
  [4.8, 4, 4, 4, 4, 4, 4, 4, 4, 4, 4, 4, 4, 4, 4, 7.2, 4, 4, 4, 4, 4, 4, 4, 4]

/-! ### CSV export / import

`exportCSV`, `parseCSV` and the `onImport` handler.  A JS string is its
code-unit list, so `join`/`split`/`trim` are modelled directly on lists.
-/

/-- The JS whitespace characters relevant to `trim` (ASCII range). -/
def isSpaceJS (c : Char) : Bool :=
  decide (c.toNat = 32 ∨ c.toNat = 9 ∨ c.toNat = 10 ∨ c.toNat = 13 ∨
    c.toNat = 11 ∨ c.toNat = 12)

/-- JS `String.prototype.trim`. -/
def trimJS (s : Str) : Str :=
  ((s.dropWhile isSpaceJS).reverse.dropWhile isSpaceJS).reverse

/-- Decimal rendering of a natural number (fuel-structured so that it
evaluates in the kernel). -/
def natToStrGo : Nat → Nat → Str
  | _, 0 => []
  | n, fuel + 1 =>
    if n < 10 then [digitChar n]
    else natToStrGo (n / 10) fuel ++ [digitChar (n % 10)]

/-- JS `String(n)` for a natural number. -/
def natToStr (n : Nat) : Str := natToStrGo n (n + 1)

/-- JS `String(i)` for an integer. -/
def intToStr (i : Int) : Str :=
  if i < 0 then '-' :: natToStr (-i).toNat else natToStr i.toNat

/-- JS `String.prototype.padStart(len, c)`. -/
def padStart (len : Nat) (c : Char) (s : Str) : Str :=
  List.replicate (len - s.length) c ++ s

/-- The source's `toHHMM(m)`:
`String(Math.floor(m / 60)).padStart(2, "0") + ":" + String(m % 60).padStart(2, "0")`
(JS `Math.floor` on the float quotient is flooring division, JS `%` is
the truncated remainder). -/
def toHHMM (m : Int) : Str :=
  padStart 2 '0' (intToStr (m.fdiv 60)) ++ ':' :: padStart 2 '0' (intToStr (m.tmod 60))

/-- Numeric value of a digit string (most significant first). -/
def digitsToNat (l : Str) : Nat := l.foldl (fun acc c => acc * 10 + digitVal c) 0

/-- JS `parseInt(s, 10)` (`none` models `NaN`): skip leading whitespace,
optional sign, then the maximal digit prefix. -/
def parseIntJS (s : Str) : Option Int :=
  let t := s.dropWhile isSpaceJS
  let neg := decide (t.headD ' ' = '-')
  let t2 := if t.headD ' ' = '-' ∨ t.headD ' ' = '+' then t.tail else t
  let ds := t2.takeWhile isDigitB
  if ds = [] then none
  else some ((if neg then -1 else 1) * (digitsToNat ds : Int))

/-- The importer's `toMin(hhmm)`: `undefined` for an empty field, parse
`HH:MM` via the first two `split(":")` parts, `undefined` when either is
`NaN`, hours clamped to `[0,23]` and minutes to `[0,59]`. -/
def toMin (hhmm : Str) : Option Int :=
  if hhmm = [] then none
  else
    let parts := hhmm.splitOn ':'
    let hhO := parseIntJS (parts.getD 0 [])
    let mmO :=
      match parts with
      | _ :: m :: _ => parseIntJS m
      | _ => none
    match hhO, mmO with
    | some hh, some mm => some (max 0 (min 23 hh) * 60 + max 0 (min 59 mm))
    | _, _ => none

/-- The CSV column set (header array of `exportCSV` and the importer's
`needed` list). -/
def csvHeaders : List Str :=
  ["agent".data, "day".data, "active".data, "start".data, "end".data,
   "break_start".data, "break_minutes".data]

/-- One exported CSV row for `(a, d)`:
`roster[a.name]?.[d] || DEFAULT_DAY` rendered to the 7 column values. -/
def exportRow (roster : Roster) (a : Agent) (d : Weekday) : List Str :=
  let blk := (rosterLookup roster a.name d).getD DEFAULT_DAY
  [a.name, weekdayStr d,
   if blk.active then "1".data else "0".data,
   toHHMM blk.startMin, toHHMM blk.endMin,
   (match blk.breakStartMin with
    | some b => toHHMM b
    | none => []),
   intToStr (jsOr0 blk.breakMins)]

/-- The source's `exportCSV(roster, agents)`:
`[header.join(","), ...rows].join("\n")`, one row per (agent, weekday)
pair in the fixed weekday order. -/
def exportCSV (roster : Roster) (agents : List Agent) : Str :=
  List.intercalate ['\n']
    (List.intercalate [','] csvHeaders ::
      agents.flatMap (fun a =>
        WEEKDAYS.map (fun d => List.intercalate [','] (exportRow roster a d))))

/-- Strip one trailing `\r` (the `\r?` of the line-splitting regex). -/
def stripCR (l : Str) : Str :=
  if l.getLast? = some '\r' then l.dropLast else l

/-- `text.trim().split(/\r?\n/)`. -/
def splitLines (t : Str) : List Str := (t.splitOn '\n').map stripCR

/-- The row object built by `headers.forEach((h, i) => obj[h] = parts[i] || "")`. -/
def buildObj (headers parts : List Str) : List (Str × Str) :=
  headers.enum.foldl (fun o p => setKey o p.2 (parts.getD p.1 [])) []

/-- Reading a field of a row object (`r["..."]`, with both a missing key
and an empty value behaving as the empty string at every use site). -/
def getObj (o : List (Str × Str)) (k : Str) : Str := (getKey o k).getD []

/-- The source's `parseCSV(text)`: header names and row objects. -/
def parseCSV (text : Str) : List Str × List (List (Str × Str)) :=
  let lines := splitLines (trimJS text)
  let headers := ((lines.headD []).splitOn ',').map trimJS
  (headers,
   lines.tail.map (fun line => buildObj headers ((line.splitOn ',').map trimJS)))

/-- The weekday label set membership test (`daySet.has(day)`) combined
with the label decoding. -/
def strToWeekday (s : Str) : Option Weekday :=
  if s = "Saturday".data then some .saturday
  else if s = "Sunday".data then some .sunday
  else if s = "Monday".data then some .monday
  else if s = "Tuesday".data then some .tuesday
  else if s = "Wednesday".data then some .wednesday
  else if s = "Thursday".data then some .thursday
  else if s = "Friday".data then some .friday
  else none

/-- The agent auto-created by the importer on first reference. -/
def defaultImportedAgent (name : Str) : Agent :=
  { name := name, country := "SA".data, level := .junior, remote := true,
    fridayAllowed := true, breakPref := .sixty }

/-- `nextRoster[name][day] = blk` (creating `nextRoster[name]` first when
absent). -/
def setRoster (roster : Roster) (name : Str) (day : Weekday) (blk : DayBlock) : Roster :=
  setKey roster name (setKey ((getKey roster name).getD []) day blk)

/-- JS `x || y` on strings. -/
def orElseStr (s fallback : Str) : Str := if s = [] then fallback else s

/-- Processing of one CSV row inside `onImport`'s loop: skip rows with an
empty agent or unknown day, auto-create unknown agents, then overwrite
the roster entry for `(agent, day)`. -/
def importRow (st : List Agent × Roster) (r : List (Str × Str)) :
    List Agent × Roster :=
  let name := getObj r "agent".data
  match strToWeekday (getObj r "day".data) with
  | none => st
  | some day =>
    if name = [] then st
    else
      let agents1 :=
        if st.1.any (fun a => decide (a.name = name)) then st.1
        else st.1 ++ [defaultImportedAgent name]
      let active :=
        decide (getObj r "active".data = "1".data) ||
          decide (trimJS ((getObj r "active".data).map Char.toLower) = "true".data)
      let startMin := (toMin (getObj r "start".data)).getD DEFAULT_DAY.startMin
      let endMin := (toMin (getObj r "end".data)).getD DEFAULT_DAY.endMin
      let breakStartMin := toMin (getObj r "break_start".data)
      let breakMins :=
        (parseIntJS (orElseStr (getObj r "break_minutes".data) "0".data)).getD 0
      (agents1, setRoster st.2 name day
        { active := active, startMin := startMin, endMin := endMin,
          breakStartMin := if 0 < breakMins then breakStartMin else none,
          breakMins := some (max 0 breakMins) })

/-- The source's `onImport`: reject the whole import unless every needed
column is present, otherwise fold the row processing over the parsed
rows starting from the current agents and roster. -/
def onImport (text : Str) (agents : List Agent) (roster : Roster) :
    Option (List Agent × Roster) :=
  let parsed := parseCSV text
  if csvHeaders.all (fun h => parsed.1.contains h) then
    some (parsed.2.foldl importRow (agents, roster))
  else none

/-- A CSV-safe agent name: non-empty, free of separators, and invariant
under `trim` (the parser trims every cell). -/
def goodNameB (s : Str) : Bool :=
  decide (s ≠ []) && !(s.contains ',') && !(s.contains '\n') &&
    !(s.contains '\r') && decide (trimJS s = s)

/-- A block whose field values survive the CSV round trip: minutes in
`[0, 1440)`, an explicit non-negative `breakMins`, and `breakStartMin`
present exactly when `breakMins > 0`. -/
def goodBlockB (b : DayBlock) : Bool :=
  decide (0 ≤ b.startMin) && decide (b.startMin < 1440) &&
    decide (0 ≤ b.endMin) && decide (b.endMin < 1440) &&
    (match b.breakMins, b.breakStartMin with
     | some bm, some bs => decide (0 < bm) && decide (0 ≤ bs) && decide (bs < 1440)
     | some bm, none => decide (bm = 0)
     | none, _ => false)

/-- The block of the C6 counterexample: a recorded break start with a
zero break length (its `breakStartMin` does not survive the round
trip). -/
def badBlock : DayBlock :=
  { active := true, startMin := 540, endMin := 1020,
    breakStartMin := some 780, breakMins := some 0 }

/-- A roster holding `badBlock` on Saturday for Alice. -/
def badRoster : Roster := [("Alice".data, [(Weekday.saturday, badBlock)])]

/-- The roster write target of a CSV row: `none` when the row is skipped
(empty agent or unrecognised day). -/
def rowKey (r : List (Str × Str)) : Option (Str × Weekday) :=
  match strToWeekday (getObj r "day".data) with
  | none => none
  | some day => if getObj r "agent".data = [] then none else some (getObj r "agent".data, day)

/-- The block a (non-skipped) CSV row writes, as a function of the row
alone. -/
def rowBlk (r : List (Str × Str)) : DayBlock :=
  let breakMins :=
    (parseIntJS (orElseStr (getObj r "break_minutes".data) "0".data)).getD 0
  { active :=
      decide (getObj r "active".data = "1".data) ||
        decide (trimJS ((getObj r "active".data).map Char.toLower) = "true".data),
    startMin := (toMin (getObj r "start".data)).getD DEFAULT_DAY.startMin,
    endMin := (toMin (getObj r "end".data)).getD DEFAULT_DAY.endMin,
    breakStartMin := if 0 < breakMins then toMin (getObj r "break_start".data) else none,
    breakMins := some (max 0 breakMins) }

/-! ### Theorems -/

theorem ltL_irrefl (l : Str) : ltL l l = false := by
  induction l with
  | nil => rfl
  | cons a as ih => simp [ltL, ih]

theorem ltL_asymm {a b : Str} (h : ltL a b = true) : ltL b a = false := by
  induction a generalizing b with
  | nil =>
    cases b with
    | nil => simp [ltL] at h
    | cons x xs => simp [ltL]
  | cons x xs ih =>
    cases b with
    | nil => simp [ltL] at h
    | cons y ys =>
      simp only [ltL] at h ⊢
      by_cases h1 : x.toNat < y.toNat
      · simp [h1, Nat.lt_asymm h1]
      · by_cases h2 : y.toNat < x.toNat
        · simp [h1, h2] at h
        · simp only [if_neg h1, if_neg h2] at h ⊢
          exact ih h

theorem ltL_trans {a b c : Str} (hab : ltL a b = true) (hbc : ltL b c = true) :
    ltL a c = true := by
  induction a generalizing b c with
  | nil =>
    cases c with
    | nil =>
      cases b with
      | nil => exact hab
      | cons y ys => simp [ltL] at hbc
    | cons z zs => simp [ltL]
  | cons x xs ih =>
    cases b with
    | nil => simp [ltL] at hab
    | cons y ys =>
      cases c with
      | nil => simp [ltL] at hbc
      | cons z zs =>
        simp only [ltL] at hab hbc ⊢
        by_cases h1 : x.toNat < y.toNat <;> by_cases h2 : y.toNat < z.toNat
        · simp [Nat.lt_trans h1 h2]
        · by_cases h3 : z.toNat < y.toNat
          · simp [h2, h3] at hbc
          · have : y.toNat = z.toNat := by omega
            simp [show x.toNat < z.toNat by omega]
        · by_cases h3 : y.toNat < x.toNat
          · simp [h1, h3] at hab
          · have : x.toNat = y.toNat := by omega
            simp [show x.toNat < z.toNat by omega]
        · by_cases h3 : y.toNat < x.toNat
          · simp [h1, h3] at hab
          · by_cases h4 : z.toNat < y.toNat
            · simp [h2, h4] at hbc
            · have hxy : x.toNat = y.toNat := by omega
              have hyz : y.toNat = z.toNat := by omega
              simp only [if_neg h1, if_neg h3] at hab
              simp only [if_neg h2, if_neg h4] at hbc
              simp only [if_neg (show ¬ x.toNat < z.toNat by omega),
                if_neg (show ¬ z.toNat < x.toNat by omega)]
              exact ih hab hbc

/-- Characters with equal code units are equal. -/
theorem char_toNat_inj {c d : Char} (h : c.toNat = d.toNat) : c = d := by
  have := Char.ofNat_toNat c
  rw [h, Char.ofNat_toNat d] at this
  exact this.symm

theorem eq_of_not_ltL {a b : Str} (h1 : ltL a b = false) (h2 : ltL b a = false) :
    a = b := by
  induction a generalizing b with
  | nil =>
    cases b with
    | nil => rfl
    | cons y ys => simp [ltL] at h1
  | cons x xs ih =>
    cases b with
    | nil => simp [ltL] at h2
    | cons y ys =>
      simp only [ltL] at h1 h2
      by_cases hxy : x.toNat < y.toNat
      · simp [hxy] at h1
      · by_cases hyx : y.toNat < x.toNat
        · simp [hyx, hxy] at h2
        · simp only [if_neg hxy, if_neg hyx] at h1 h2
          have hx : x = y := char_toNat_inj (by omega)
          rw [hx, ih h1 h2]

/-- From `c ≤ a` (no `a < c`) and `a < b` conclude `c < b`. -/
theorem ltL_of_not_ltL_of_ltL {a b c : Str} (h1 : ltL a c = false)
    (h2 : ltL a b = true) : ltL c b = true := by
  cases hc : ltL c b
  · exfalso
    cases hb : ltL b c
    · have hcb : c = b := eq_of_not_ltL hc hb
      rw [hcb, h2] at h1
      exact Bool.noConfusion h1
    · have := ltL_trans h2 hb
      rw [this] at h1
      exact Bool.noConfusion h1
  · rfl

/-- From `a < b` and `b ≤ c` (no `c < b`) conclude `a < c`. -/
theorem ltL_of_ltL_of_not_ltL {a b c : Str} (h1 : ltL a b = true)
    (h2 : ltL c b = false) : ltL a c = true := by
  cases hac : ltL a c
  · exfalso
    cases hca : ltL c a
    · have hacq : a = c := eq_of_not_ltL hac hca
      rw [← hacq, h1] at h2
      exact Bool.noConfusion h2
    · have := ltL_trans hca h1
      rw [this] at h2
      exact Bool.noConfusion h2
  · rfl

/-- Non-strict order is transitive: `a ≤ b` and `b ≤ c` give `a ≤ c`
(stated on the negations of `ltL`). -/
theorem not_ltL_trans {a b c : Str} (h1 : ltL b a = false) (h2 : ltL c b = false) :
    ltL c a = false := by
  cases hca : ltL c a
  · rfl
  · exfalso
    have := ltL_of_ltL_of_not_ltL hca h1
    rw [this] at h2
    exact Bool.noConfusion h2

theorem compareISO_le_zero {a b : Str} : compareISO a b ≤ 0 ↔ ltL b a = false := by
  unfold compareISO
  by_cases h1 : ltL a b
  · simp [h1, ltL_asymm h1]
  · by_cases h2 : ltL b a <;> simp [h1, h2]

theorem compareISO_pos {a b : Str} : 0 < compareISO a b ↔ ltL b a = true := by
  unfold compareISO
  by_cases h1 : ltL a b
  · simp [h1, ltL_asymm h1]
  · by_cases h2 : ltL b a <;> simp [h1, h2]

theorem compareISO_neg {a b : Str} : compareISO a b < 0 ↔ ltL a b = true := by
  unfold compareISO
  by_cases h1 : ltL a b
  · simp [h1]
  · by_cases h2 : ltL b a <;> simp [h1, h2]

theorem digitChar_toNat {n : Nat} (h : n < 10) : (digitChar n).toNat = 48 + n := by
  have : ∀ k, k < 10 → (digitChar k).toNat = 48 + k := by decide
  exact this n h

theorem ltL_append_same (xs : Str) (a b : Str) : ltL (xs ++ a) (xs ++ b) = ltL a b := by
  induction xs with
  | nil => rfl
  | cons c cs ih => simp [ltL, ih]

theorem ltL_append_of_lt : ∀ {xs ys : Str}, xs.length = ys.length →
    ltL xs ys = true → ∀ a b, ltL (xs ++ a) (ys ++ b) = true := by
  intro xs
  induction xs with
  | nil =>
    intro ys hlen h
    cases ys with
    | nil => simp [ltL] at h
    | cons y ys => simp at hlen
  | cons x xs ih =>
    intro ys hlen h a b
    cases ys with
    | nil => simp at hlen
    | cons y ys =>
      simp only [ltL] at h ⊢
      by_cases h1 : x.toNat < y.toNat
      · simp [h1]
      · by_cases h2 : y.toNat < x.toNat
        · simp [h1, h2] at h
        · simp only [if_neg h1, if_neg h2] at h ⊢
          exact ih (by simpa using hlen) h a b

theorem pad2_lt {a b : Nat} (hab : a < b) (hb : b ≤ 99) : ltL (pad2 a) (pad2 b) = true := by
  have ha1 : a / 10 < 10 := by omega
  have hb1 : b / 10 < 10 := by omega
  have ha2 : a % 10 < 10 := by omega
  have hb2 : b % 10 < 10 := by omega
  simp only [pad2, ltL, digitChar_toNat ha1, digitChar_toNat hb1,
    digitChar_toNat ha2, digitChar_toNat hb2]
  rcases Nat.lt_trichotomy (a / 10) (b / 10) with h | h | h
  · rw [if_pos (by omega)]
  · rw [if_neg (by omega), if_neg (by omega), if_pos (by omega)]
  · omega

theorem pad4_lt {a b : Nat} (hab : a < b) (hb : b ≤ 9999) :
    ltL (pad4 a) (pad4 b) = true := by
  have ha1 : a / 1000 < 10 := by omega
  have hb1 : b / 1000 < 10 := by omega
  simp only [pad4, ltL, digitChar_toNat ha1, digitChar_toNat hb1,
    digitChar_toNat (show a / 100 % 10 < 10 by omega),
    digitChar_toNat (show b / 100 % 10 < 10 by omega),
    digitChar_toNat (show a / 10 % 10 < 10 by omega),
    digitChar_toNat (show b / 10 % 10 < 10 by omega),
    digitChar_toNat (show a % 10 < 10 by omega),
    digitChar_toNat (show b % 10 < 10 by omega)]
  rcases Nat.lt_trichotomy (a / 1000) (b / 1000) with h1 | h1 | h1
  · rw [if_pos (by omega)]
  · rw [if_neg (by omega), if_neg (by omega)]
    rcases Nat.lt_trichotomy (a / 100 % 10) (b / 100 % 10) with h2 | h2 | h2
    · rw [if_pos (by omega)]
    · rw [if_neg (by omega), if_neg (by omega)]
      rcases Nat.lt_trichotomy (a / 10 % 10) (b / 10 % 10) with h3 | h3 | h3
      · rw [if_pos (by omega)]
      · rw [if_neg (by omega), if_neg (by omega), if_pos (by omega)]
      · omega
    · omega
  · omega

theorem daysInMonth_le (y m : Nat) : daysInMonth y m ≤ 31 := by
  unfold daysInMonth
  split
  · split <;> omega
  · split <;> omega

/-- Formatting is strictly monotone along the calendar successor. -/
theorem fmtISO_lt_next {y m d : Nat} (h : validDate y m d = true) :
    ltL (fmtISO y m d) (fmtISO (nextDay (y, m, d)).1 (nextDay (y, m, d)).2.1
      (nextDay (y, m, d)).2.2) = true := by
  rw [validDate, decide_eq_true_eq] at h
  obtain ⟨hy1, hy2, hm1, hm2, hd1, hd2⟩ := h
  have hdim := daysInMonth_le y m
  by_cases hc1 : d < daysInMonth y m
  · rw [show nextDay (y, m, d) = (y, m, d + 1) by simp [nextDay, hc1]]
    show ltL (fmtISO y m d) (fmtISO y m (d + 1)) = true
    have hsh : ∀ dd, fmtISO y m dd = (pad4 y ++ '-' :: (pad2 m ++ ['-'])) ++ pad2 dd := by
      intro dd; simp [fmtISO]
    rw [hsh d, hsh (d + 1), ltL_append_same]
    exact pad2_lt (Nat.lt_succ_self d) (by omega)
  · by_cases hc2 : m < 12
    · rw [show nextDay (y, m, d) = (y, m + 1, 1) by simp [nextDay, hc1, hc2]]
      show ltL (fmtISO y m d) (fmtISO y (m + 1) 1) = true
      have hsh : ∀ mm dd, fmtISO y mm dd =
          (pad4 y ++ ['-']) ++ (pad2 mm ++ '-' :: pad2 dd) := by
        intro mm dd; simp [fmtISO]
      rw [hsh m d, hsh (m + 1) 1, ltL_append_same]
      exact ltL_append_of_lt (by simp [pad2]) (pad2_lt (Nat.lt_succ_self m) (by omega)) _ _
    · rw [show nextDay (y, m, d) = (y + 1, 1, 1) by simp [nextDay, hc1, hc2]]
      show ltL (fmtISO y m d) (fmtISO (y + 1) 1 1) = true
      show ltL (pad4 y ++ '-' :: (pad2 m ++ '-' :: pad2 d))
        (pad4 (y + 1) ++ '-' :: (pad2 1 ++ '-' :: pad2 1)) = true
      exact ltL_append_of_lt (by simp [pad4]) (pad4_lt (Nat.lt_succ_self y) (by omega)) _ _

theorem isDigitB_digitVal_le {c : Char} (h : isDigitB c = true) : digitVal c ≤ 9 := by
  rw [isDigitB, decide_eq_true_eq] at h
  unfold digitVal
  omega

theorem digitChar_digitVal {c : Char} (h : isDigitB c = true) :
    digitChar (digitVal c) = c := by
  rw [isDigitB, decide_eq_true_eq] at h
  unfold digitChar digitVal
  rw [show 48 + (c.toNat - 48) = c.toNat by omega, Char.ofNat_toNat]

/-- A successfully parsed string is exactly the rendering of its parsed
components (the parser accepts only canonical `YYYY-MM-DD`). -/
theorem parseISO_fmt {s : Str} {y m d : Nat} (h : parseISO s = some (y, m, d)) :
    s = fmtISO y m d ∧ y ≤ 9999 ∧ m ≤ 99 ∧ d ≤ 99 := by
  rcases s with _ | ⟨q1, s⟩
  · simp [parseISO] at h
  rcases s with _ | ⟨q2, s⟩
  · simp [parseISO] at h
  rcases s with _ | ⟨q3, s⟩
  · simp [parseISO] at h
  rcases s with _ | ⟨q4, s⟩
  · simp [parseISO] at h
  rcases s with _ | ⟨k1, s⟩
  · simp [parseISO] at h
  rcases s with _ | ⟨n1, s⟩
  · simp [parseISO] at h
  rcases s with _ | ⟨n2, s⟩
  · simp [parseISO] at h
  rcases s with _ | ⟨k2, s⟩
  · simp [parseISO] at h
  rcases s with _ | ⟨r1, s⟩
  · simp [parseISO] at h
  rcases s with _ | ⟨r2, s⟩
  · simp [parseISO] at h
  rcases s with _ | ⟨x1, s⟩
  swap
  · simp [parseISO] at h
  simp only [parseISO] at h
  by_cases hcond : (k1 = '-' ∧ k2 = '-' ∧
      ([q1, q2, q3, q4, n1, n2, r1, r2].all isDigitB) = true)
  · rw [if_pos hcond] at h
    obtain ⟨hk1, hk2, hdig⟩ := hcond
    simp only [List.all_cons, List.all_nil, Bool.and_eq_true] at hdig
    obtain ⟨hq1, hq2, hq3, hq4, hn1, hn2, hr1, hr2, -⟩ := hdig
    simp only [Option.some.injEq, Prod.mk.injEq] at h
    obtain ⟨hy, hm, hd⟩ := h
    subst hy; subst hm; subst hd
    have v1 := isDigitB_digitVal_le hq1
    have v2 := isDigitB_digitVal_le hq2
    have v3 := isDigitB_digitVal_le hq3
    have v4 := isDigitB_digitVal_le hq4
    have w1 := isDigitB_digitVal_le hn1
    have w2 := isDigitB_digitVal_le hn2
    have u1 := isDigitB_digitVal_le hr1
    have u2 := isDigitB_digitVal_le hr2
    refine ⟨?_, by omega, by omega, by omega⟩
    subst hk1; subst hk2
    simp only [fmtISO, pad4, pad2, List.cons_append, List.nil_append]
    rw [show (((digitVal q1 * 10 + digitVal q2) * 10 + digitVal q3) * 10 + digitVal q4)
        / 1000 = digitVal q1 by omega,
      show (((digitVal q1 * 10 + digitVal q2) * 10 + digitVal q3) * 10 + digitVal q4)
        / 100 % 10 = digitVal q2 by omega,
      show (((digitVal q1 * 10 + digitVal q2) * 10 + digitVal q3) * 10 + digitVal q4)
        / 10 % 10 = digitVal q3 by omega,
      show (((digitVal q1 * 10 + digitVal q2) * 10 + digitVal q3) * 10 + digitVal q4)
        % 10 = digitVal q4 by omega,
      show (digitVal n1 * 10 + digitVal n2) / 10 = digitVal n1 by omega,
      show (digitVal n1 * 10 + digitVal n2) % 10 = digitVal n2 by omega,
      show (digitVal r1 * 10 + digitVal r2) / 10 = digitVal r1 by omega,
      show (digitVal r1 * 10 + digitVal r2) % 10 = digitVal r2 by omega,
      digitChar_digitVal hq1, digitChar_digitVal hq2, digitChar_digitVal hq3,
      digitChar_digitVal hq4, digitChar_digitVal hn1, digitChar_digitVal hn2,
      digitChar_digitVal hr1, digitChar_digitVal hr2]
  · rw [if_neg hcond] at h
    exact Option.noConfusion h

/-- A well-formed ISO date is strictly smaller (as a JS string) than its
calendar successor: `s < addDaysISO(s, 1)`. -/
theorem validISO_lt_addDays {s : Str} (h : validISO s = true) :
    ltL s (addDaysISO s 1) = true := by
  unfold validISO at h
  cases hp : parseISO s with
  | none => rw [hp] at h; exact Bool.noConfusion h
  | some t =>
    obtain ⟨y, m, d⟩ := t
    rw [hp] at h
    obtain ⟨hs, -, -, -⟩ := parseISO_fmt hp
    simp only [addDaysISO, hp, Function.iterate_one]
    conv_lhs => rw [hs]
    exact fmtISO_lt_next h

/-! ### Coverage-engine theorems -/

theorem agentCoverageVector_length (roster : Roster) (day : Weekday) (dateISO : Str)
    (vacations : Vacations) (a : Agent) :
    (agentCoverageVector roster day dateISO vacations a).length = 48 := by
  unfold agentCoverageVector
  split
  · simp
  · split
    · split <;> simp [blockVector]
    · simp

theorem zipWith_add_replicate_zero {l : List Nat} {n : Nat} (h : l.length = n) :
    List.zipWith (· + ·) l (List.replicate n 0) = l := by
  induction l generalizing n with
  | nil => simp
  | cons x xs ih =>
    cases n with
    | zero => simp at h
    | succ n =>
      simp only [List.replicate, List.zipWith, Nat.add_zero]
      rw [ih (by simpa using h)]

theorem halfHourCoverage_foldl_length (roster : Roster) (day : Weekday) (dateISO : Str)
    (vacations : Vacations) (agents : List Agent) :
    ∀ init : List Nat, init.length = 48 →
      (agents.foldl
        (fun cov a =>
          List.zipWith (· + ·) cov (agentCoverageVector roster day dateISO vacations a))
        init).length = 48 := by
  induction agents with
  | nil => intro init h; simpa using h
  | cons a rest ih =>
    intro init h
    simp only [List.foldl_cons]
    exact ih _ (by simp [List.length_zipWith, h, agentCoverageVector_length])

/-- C2.  For the spec's example block (09:00–17:00, 60-minute break at
13:00), a non-vacationing agent's coverage contribution is exactly 1 in
every bucket 18..33 except buckets 26 and 27 (the break), and 0 in every
bucket outside 18..33. -/
theorem coverage_example_block :
    ∀ k : Nat, k < 48 →
      (halfHourCoverage exampleRoster [exampleAgent] Weekday.monday
          "2024-06-03".data []).getD k 0 =
        (if 18 ≤ k ∧ k ≤ 33 ∧ k ≠ 26 ∧ k ≠ 27 then 1 else 0) := by
  decide

/-- Witness for C2 at bucket 20 (10:00–10:30). -/
theorem coverage_example_block_witness :
    (halfHourCoverage exampleRoster [exampleAgent] Weekday.monday
        "2024-06-03".data []).getD 20 0 =
      (if 18 ≤ 20 ∧ 20 ≤ 33 ∧ 20 ≠ 26 ∧ 20 ≠ 27 then 1 else 0) :=
  coverage_example_block 20 (by decide)

/-- C3.  An agent whose stored vacation ranges contain the target date
contributes the zero vector, and its presence anywhere in the agent list
leaves every one of the 48 coverage buckets unchanged, regardless of its
DayBlock. -/
theorem vacationing_agent_excluded (roster : Roster) (pre post : List Agent)
    (a : Agent) (day : Weekday) (dateISO : Str) (vacations : Vacations)
    (h : isAgentOnVacation a.name dateISO vacations = true) :
    agentCoverageVector roster day dateISO vacations a = List.replicate 48 0 ∧
      halfHourCoverage roster (pre ++ a :: post) day dateISO vacations =
        halfHourCoverage roster (pre ++ post) day dateISO vacations := by
  constructor
  · unfold agentCoverageVector
    rw [if_pos h]
  · unfold halfHourCoverage
    rw [List.foldl_append, List.foldl_append, List.foldl_cons]
    congr 1
    unfold agentCoverageVector
    rw [if_pos h]
    exact zipWith_add_replicate_zero
      (halfHourCoverage_foldl_length roster day dateISO vacations pre _ (by simp))

/-- Witness for C3: a concrete vacationing agent adds nothing. -/
theorem vacationing_agent_excluded_witness :
    agentCoverageVector exampleRoster Weekday.monday "2024-06-05".data
        [("Alice".data, [⟨"2024-06-01".data, "2024-06-10".data⟩])] exampleAgent =
      List.replicate 48 0 ∧
      halfHourCoverage exampleRoster ([] ++ exampleAgent :: []) Weekday.monday
          "2024-06-05".data
          [("Alice".data, [⟨"2024-06-01".data, "2024-06-10".data⟩])] =
        halfHourCoverage exampleRoster ([] ++ []) Weekday.monday "2024-06-05".data
          [("Alice".data, [⟨"2024-06-01".data, "2024-06-10".data⟩])] :=
  vacationing_agent_excluded exampleRoster [] [] exampleAgent Weekday.monday
    "2024-06-05".data _ (by decide)

theorem bucketBrk_nonneg (blk : DayBlock) (k : Nat) : 0 ≤ bucketBrk blk k := by
  unfold bucketBrk
  split
  · split
    · exact le_max_left 0 _
    · exact le_refl 0
  · exact le_refl 0

/-- C4.  A degenerate block (`endMin ≤ startMin`) contributes nothing: no
bucket passes the `work - brk > 0` test, and any agent holding such a
block for the weekday adds the zero vector to the coverage. -/
theorem degenerate_block_no_coverage (blk : DayBlock)
    (h : blk.endMin ≤ blk.startMin) :
    (∀ k : Nat, contributes blk k = false) ∧
      blockVector blk = List.replicate 48 0 ∧
      ∀ (roster : Roster) (day : Weekday) (dateISO : Str) (vacations : Vacations)
        (a : Agent), rosterLookup roster a.name day = some blk →
          agentCoverageVector roster day dateISO vacations a = List.replicate 48 0 := by
  have hwork : ∀ k : Nat, bucketWork blk k = 0 := by
    intro k
    unfold bucketWork
    omega
  have hcontrib : ∀ k : Nat, contributes blk k = false := by
    intro k
    have hnn := bucketBrk_nonneg blk k
    unfold contributes
    rw [hwork k, decide_eq_false_iff_not]
    omega
  have hvec : blockVector blk = List.replicate 48 0 := by
    unfold blockVector
    rw [show (48 : Nat) = (List.range 48).length by simp]
    rw [List.eq_replicate_iff]
    refine ⟨by simp, ?_⟩
    intro b hb
    simp only [List.mem_map] at hb
    obtain ⟨k, -, hk⟩ := hb
    rw [hcontrib k] at hk
    simpa using hk.symm
  refine ⟨hcontrib, hvec, ?_⟩
  intro roster day dateISO vacations a hlook
  unfold agentCoverageVector
  split
  · rfl
  · rw [hlook]
    show (if blk.active = true then blockVector blk else List.replicate 48 0) =
      List.replicate 48 0
    split
    · exact hvec
    · rfl

/-- Witness for C4: a concrete inverted block (end before start). -/
theorem degenerate_block_no_coverage_witness :
    contributes (⟨true, 600, 500, some 780, some 60⟩ : DayBlock) 20 = false :=
  (degenerate_block_no_coverage _ (by decide)).1 20

/-- C8 counterexample.  For an agent present in the agent list with no
roster entry for the weekday, the coverage computation does NOT count the
default block: it skips the agent, so bucket 20 reads 0 even though
`DEFAULT_DAY` covers bucket 20. -/
theorem missing_weekday_not_counted :
    (halfHourCoverage [] [bobAgent] Weekday.monday "2024-06-03".data []).getD 20 0 = 0 ∧
      contributes DEFAULT_DAY 20 = true := by
  decide

/-- C8 (amended).  A missing weekday resolves to `DEFAULT_DAY` in the
roster-table display accessor, but the coverage computation skips such an
agent entirely: it contributes 0 to every bucket. -/
theorem missing_weekday_display_default_coverage_zero (roster : Roster) (a : Agent)
    (day : Weekday) (dateISO : Str) (vacations : Vacations)
    (h : rosterLookup roster a.name day = none) :
    resolveDisplayBlock roster a.name day = DEFAULT_DAY ∧
      agentCoverageVector roster day dateISO vacations a = List.replicate 48 0 := by
  constructor
  · unfold resolveDisplayBlock
    rw [h]
    rfl
  · unfold agentCoverageVector
    split
    · rfl
    · rw [h]

/-- Witness for amended C8 at a concrete empty roster. -/
theorem missing_weekday_display_default_coverage_zero_witness :
    resolveDisplayBlock [] bobAgent.name Weekday.monday = DEFAULT_DAY ∧
      agentCoverageVector [] Weekday.monday "2024-06-03".data [] bobAgent =
        List.replicate 48 0 :=
  missing_weekday_display_default_coverage_zero [] bobAgent Weekday.monday
    "2024-06-03".data [] (by decide)

/-! ### Vacation-store theorems -/

theorem rleStart_total_thm (a b : VacationRange) : rleStart a b ∨ rleStart b a := by
  unfold rleStart
  cases h : ltL b.start a.start
  · exact Or.inl rfl
  · exact Or.inr (ltL_asymm h)

theorem rleStart_trans_thm {a b c : VacationRange} (h1 : rleStart a b)
    (h2 : rleStart b c) : rleStart a c := by
  unfold rleStart at h1 h2 ⊢
  exact not_ltL_trans h1 h2

theorem pairwise_of_len_le_one {α : Type} {R : α → α → Prop} {xs : List α}
    (h : xs.length ≤ 1) : xs.Pairwise R := by
  cases xs with
  | nil => exact List.Pairwise.nil
  | cons x t =>
    cases t with
    | nil => simp
    | cons y t2 => simp at h

theorem validRange_iff {r : VacationRange} : validRange r = true ↔
    (validISO r.start = true ∧ validISO r.endD = true ∧
      compareISO r.start r.endD ≤ 0) := by
  unfold validRange
  simp [Bool.and_eq_true, and_assoc]

theorem mergeSweep_spec (rest : List VacationRange) : ∀ (cur : VacationRange),
    (∀ r ∈ rest, rleStart cur r) → rest.Pairwise rleStart →
    validRange cur = true → (∀ r ∈ rest, validRange r = true) →
    (∀ x ∈ mergeSweep cur rest, validRange x = true ∧ rleStart cur x) ∧
      (mergeSweep cur rest).Pairwise gapOrdered ∧
      (mergeSweep cur rest).Pairwise (fun A B => compareISO A.start B.start ≤ 0) := by
  induction rest with
  | nil =>
    intro cur _ _ hv _
    refine ⟨?_, by simp [mergeSweep], by simp [mergeSweep]⟩
    intro x hx
    simp only [mergeSweep, List.mem_singleton] at hx
    subst hx
    exact ⟨hv, by unfold rleStart; exact ltL_irrefl _⟩
  | cons r rs ih =>
    intro cur hall hpw hv hvr
    rw [List.pairwise_cons] at hpw
    obtain ⟨hr_rs, hrs_pw⟩ := hpw
    have hvr_head : validRange r = true := hvr r (by simp)
    by_cases hc : compareISO r.start (addDaysISO cur.endD 1) ≤ 0
    · have heq : mergeSweep cur (r :: rs) =
          mergeSweep ⟨cur.start,
            if 0 < compareISO r.endD cur.endD then r.endD else cur.endD⟩ rs := by
        simp only [mergeSweep]
        rw [if_pos hc]
      rw [heq]
      have hv' : validRange
          (⟨cur.start, if 0 < compareISO r.endD cur.endD then r.endD
            else cur.endD⟩ : VacationRange) = true := by
        rw [validRange_iff] at hv hvr_head ⊢
        obtain ⟨hv1, hv2, hv3⟩ := hv
        obtain ⟨hr1, hr2, hr3⟩ := hvr_head
        refine ⟨hv1, ?_, ?_⟩
        · split <;> assumption
        · split
          · show compareISO cur.start r.endD ≤ 0
            rw [compareISO_le_zero]
            have hcr : ltL r.start cur.start = false := hall r (by simp)
            have hre : ltL r.endD r.start = false := compareISO_le_zero.mp hr3
            exact not_ltL_trans hcr hre
          · exact hv3
      have hall' : ∀ x ∈ rs,
          rleStart ⟨cur.start,
            if 0 < compareISO r.endD cur.endD then r.endD else cur.endD⟩ x := by
        intro x hx
        exact hall x (by simp [hx])
      obtain ⟨hmem, hgap, hsort⟩ := ih _ hall' hrs_pw hv'
        (fun x hx => hvr x (by simp [hx]))
      refine ⟨?_, hgap, hsort⟩
      intro x hx
      obtain ⟨hxv, hxle⟩ := hmem x hx
      exact ⟨hxv, hxle⟩
    · have heq : mergeSweep cur (r :: rs) = cur :: mergeSweep r rs := by
        simp only [mergeSweep]
        rw [if_neg hc]
      rw [heq]
      obtain ⟨hmem, hgap, hsort⟩ := ih r hr_rs hrs_pw hvr_head
        (fun x hx => hvr x (by simp [hx]))
      have hcurR : rleStart cur r := hall r (by simp)
      have hcpos : ltL (addDaysISO cur.endD 1) r.start = true :=
        compareISO_pos.mp (not_le.mp hc)
      refine ⟨?_, ?_, ?_⟩
      · intro x hx
        rcases List.mem_cons.mp hx with rfl | hx2
        · exact ⟨hv, by unfold rleStart; exact ltL_irrefl _⟩
        · obtain ⟨hxv, hxle⟩ := hmem x hx2
          exact ⟨hxv, rleStart_trans_thm hcurR hxle⟩
      · rw [List.pairwise_cons]
        refine ⟨?_, hgap⟩
        intro x hx
        obtain ⟨-, hxle⟩ := hmem x hx
        unfold gapOrdered
        rw [compareISO_pos]
        unfold rleStart at hxle
        exact ltL_of_ltL_of_not_ltL hcpos hxle
      · rw [List.pairwise_cons]
        refine ⟨?_, hsort⟩
        intro x hx
        obtain ⟨-, hxle⟩ := hmem x hx
        rw [compareISO_le_zero]
        have := rleStart_trans_thm hcurR hxle
        unfold rleStart at this
        exact this

theorem mergeRanges_inv (l : List VacationRange)
    (hval : ∀ r ∈ l, validRange r = true) :
    (∀ x ∈ mergeRanges l, validRange x = true) ∧
      (mergeRanges l).Pairwise gapOrdered ∧
      (mergeRanges l).Pairwise (fun A B => compareISO A.start B.start ≤ 0) := by
  haveI : IsTotal VacationRange rleStart := ⟨rleStart_total_thm⟩
  haveI : IsTrans VacationRange rleStart := ⟨fun a b c => rleStart_trans_thm⟩
  have hperm := List.perm_insertionSort rleStart l
  have hsorted := List.sorted_insertionSort rleStart l
  unfold mergeRanges
  split
  case isTrue hlen =>
    have hlen2 : (sortRanges l).length ≤ 1 := by
      unfold sortRanges
      rw [hperm.length_eq]
      exact hlen
    exact ⟨fun x hx => hval x (hperm.mem_iff.mp hx),
      pairwise_of_len_le_one hlen2, pairwise_of_len_le_one hlen2⟩
  case isFalse hlen =>
    cases hs : sortRanges l with
    | nil => exact ⟨by simp, List.Pairwise.nil, List.Pairwise.nil⟩
    | cons r rs =>
      have hsorted2 : (r :: rs).Pairwise rleStart := by
        rw [← hs]
        exact hsorted
      rw [List.pairwise_cons] at hsorted2
      have hvall : ∀ x ∈ r :: rs, validRange x = true := by
        intro x hx
        refine hval x (hperm.mem_iff.mp ?_)
        show x ∈ sortRanges l
        rw [hs]
        exact hx
      obtain ⟨hmem, hgap, hsort⟩ := mergeSweep_spec rs r hsorted2.1 hsorted2.2
        (hvall r (by simp)) (fun x hx => hvall x (by simp [hx]))
      exact ⟨fun x hx => (hmem x hx).1, hgap, hsort⟩

/-- Under the merged invariant a stored list is sorted by start date,
pairwise non-overlapping and pairwise non-adjacent. -/
theorem mergedInv_sortedDisjoint {l : List VacationRange} (h : mergedInv l) :
    rangesSortedDisjoint l := by
  obtain ⟨hval, hgap⟩ := h
  have hoverlap : l.Pairwise (fun A B => compareISO A.endD B.start < 0) := by
    refine hgap.imp_of_mem ?_
    intro A B hA hB hrel
    have hvA := (validRange_iff.mp (hval A hA)).2.1
    have h1 : ltL A.endD (addDaysISO A.endD 1) = true := validISO_lt_addDays hvA
    have h2 : ltL (addDaysISO A.endD 1) B.start = true := compareISO_pos.mp hrel
    rw [compareISO_neg]
    exact ltL_trans h1 h2
  refine ⟨?_, hoverlap, hgap⟩
  refine hoverlap.imp_of_mem ?_
  intro A B hA hB hrel
  have hvA := (validRange_iff.mp (hval A hA)).2.2
  have h1 : ltL A.endD A.start = false := compareISO_le_zero.mp hvA
  have h2 : ltL A.endD B.start = true := compareISO_neg.mp hrel
  rw [compareISO_le_zero]
  exact ltL_asymm (ltL_of_not_ltL_of_ltL h1 h2)

theorem getKey_mem {κ β : Type} [DecidableEq κ] {m : List (κ × β)} {k : κ} {v : β}
    (h : getKey m k = some v) : (k, v) ∈ m := by
  induction m with
  | nil => simp [getKey] at h
  | cons p t ih =>
    obtain ⟨k2, w⟩ := p
    rw [getKey] at h
    split at h
    · rename_i heq
      injection h with h2
      subst heq h2
      exact List.mem_cons_self _ _
    · exact List.mem_cons_of_mem _ (ih h)

theorem mem_setKey {κ β : Type} [DecidableEq κ] {m : List (κ × β)} {k : κ} {v : β}
    {p : κ × β} (h : p ∈ setKey m k v) : p = (k, v) ∨ p ∈ m := by
  induction m with
  | nil =>
    rw [setKey] at h
    simp at h
    exact Or.inl h
  | cons q t ih =>
    obtain ⟨k2, w⟩ := q
    rw [setKey] at h
    split at h
    · rcases List.mem_cons.mp h with rfl | hm
      · exact Or.inl rfl
      · exact Or.inr (List.mem_cons_of_mem _ hm)
    · rcases List.mem_cons.mp h with rfl | hm
      · exact Or.inr (List.mem_cons_self _ _)
      · rcases ih hm with h2 | h2
        · exact Or.inl h2
        · exact Or.inr (List.mem_cons_of_mem _ h2)

theorem getKey_setKey_self {κ β : Type} [DecidableEq κ] (m : List (κ × β)) (k : κ)
    (v : β) : getKey (setKey m k v) k = some v := by
  induction m with
  | nil => simp [setKey, getKey]
  | cons q t ih =>
    obtain ⟨k2, w⟩ := q
    rw [setKey]
    split
    · rw [getKey, if_pos rfl]
    · rename_i hne
      rw [getKey, if_neg hne]
      exact ih

theorem getKey_setKey_ne {κ β : Type} [DecidableEq κ] (m : List (κ × β)) (k q : κ)
    (v : β) (h : q ≠ k) : getKey (setKey m k v) q = getKey m q := by
  induction m with
  | nil =>
    rw [setKey, getKey, getKey, if_neg (fun hh => h hh.symm)]
    rfl
  | cons p t ih =>
    obtain ⟨k2, w⟩ := p
    rw [setKey]
    split
    · rename_i heq
      subst heq
      rw [getKey, getKey, if_neg (fun hh => h hh.symm), if_neg (fun hh => h hh.symm)]
    · rw [getKey, getKey]
      split
      · rfl
      · exact ih

theorem getKey_delKey_self {κ β : Type} [DecidableEq κ] (m : List (κ × β)) (k : κ) :
    getKey (delKey m k) k = none := by
  induction m with
  | nil => rfl
  | cons p t ih =>
    obtain ⟨k2, w⟩ := p
    unfold delKey at ih ⊢
    rw [List.filter_cons]
    split
    · rename_i hcond
      simp only [decide_eq_true_eq] at hcond
      rw [getKey, if_neg hcond]
      exact ih
    · exact ih

theorem getKey_delKey_ne {κ β : Type} [DecidableEq κ] (m : List (κ × β)) (k q : κ)
    (h : q ≠ k) : getKey (delKey m k) q = getKey m q := by
  induction m with
  | nil => rfl
  | cons p t ih =>
    obtain ⟨k2, w⟩ := p
    unfold delKey at ih ⊢
    rw [List.filter_cons]
    split
    · rw [getKey, getKey]
      split
      · rfl
      · exact ih
    · rename_i hcond
      simp only [decide_eq_true_eq, not_not] at hcond
      subst hcond
      rw [getKey, if_neg (fun hh => h hh.symm)]
      exact ih

theorem mem_delKey {κ β : Type} [DecidableEq κ] {m : List (κ × β)} {k : κ}
    {p : κ × β} (h : p ∈ delKey m k) : p ∈ m :=
  List.mem_of_mem_filter h

theorem addVacationRange_storeInv (vacs : Vacations) (n s e : Str)
    (hinv : storeInv vacs) (hs : validISO s = true) (he : validISO e = true)
    (hse : compareISO s e ≤ 0) : storeInv (addVacationRange vacs n s e).1 := by
  unfold addVacationRange
  split
  · exact hinv
  · split
    · exact hinv
    · show storeInv (setKey vacs n
        (mergeRanges (((getKey vacs n).getD []) ++ [⟨s, e⟩])))
      intro p hp
      rcases mem_setKey hp with rfl | hpm
      · have hold : ∀ r ∈ ((getKey vacs n).getD []), validRange r = true := by
          cases hg : getKey vacs n with
          | none => simp
          | some lold =>
            intro r hr
            have hml := hinv (n, lold) (getKey_mem hg)
            exact hml.1 r (by simpa using hr)
        have hval : ∀ r ∈ ((getKey vacs n).getD []) ++ [(⟨s, e⟩ : VacationRange)],
            validRange r = true := by
          intro r hr
          rcases List.mem_append.mp hr with h1 | h2
          · exact hold r h1
          · rw [List.mem_singleton] at h2
            subst h2
            rw [validRange_iff]
            exact ⟨hs, he, hse⟩
        obtain ⟨h1, h2, -⟩ := mergeRanges_inv _ hval
        exact ⟨h1, h2⟩
      · exact hinv p hpm

/-- C1.  With valid ranges (`start ≤ end`, well-formed dates), every
`addRange` insertion preserves the merged-store invariant (hence the
invariant holds after each insertion of any sequence starting from the
empty store), and under the invariant every agent's stored list is sorted
by start date, pairwise non-overlapping and pairwise non-adjacent;
inserting 2024-06-05..10 then the adjacent 2024-06-11..15 yields the
single merged range 2024-06-05..15, while inserting 2024-06-12..15
instead leaves two distinct ranges. -/
theorem addRange_merged_invariant :
    (∀ (vacs : Vacations) (n s e : Str), storeInv vacs →
      validISO s = true → validISO e = true → compareISO s e ≤ 0 →
      storeInv (addVacationRange vacs n s e).1) ∧
    (∀ (ops : List (Str × Str × Str)),
      (∀ op ∈ ops, validISO op.2.1 = true ∧ validISO op.2.2 = true ∧
        compareISO op.2.1 op.2.2 ≤ 0) →
      storeInv (ops.foldl
        (fun v op => (addVacationRange v op.1 op.2.1 op.2.2).1) [])) ∧
    (∀ (vacs : Vacations) (n : Str), storeInv vacs →
      rangesSortedDisjoint ((getKey vacs n).getD [])) ∧
    getKey (addVacationRange
        (addVacationRange [] "A".data "2024-06-05".data "2024-06-10".data).1
        "A".data "2024-06-11".data "2024-06-15".data).1 "A".data =
      some [⟨"2024-06-05".data, "2024-06-15".data⟩] ∧
    getKey (addVacationRange
        (addVacationRange [] "A".data "2024-06-05".data "2024-06-10".data).1
        "A".data "2024-06-12".data "2024-06-15".data).1 "A".data =
      some [⟨"2024-06-05".data, "2024-06-10".data⟩,
        ⟨"2024-06-12".data, "2024-06-15".data⟩] := by
  have hstep := addVacationRange_storeInv
  refine ⟨hstep, ?_, ?_, by decide, by decide⟩
  · intro ops hops
    suffices hgen : ∀ (ops2 : List (Str × Str × Str)),
        (∀ op ∈ ops2, validISO op.2.1 = true ∧ validISO op.2.2 = true ∧
          compareISO op.2.1 op.2.2 ≤ 0) →
        ∀ vacs, storeInv vacs →
        storeInv (ops2.foldl
          (fun v op => (addVacationRange v op.1 op.2.1 op.2.2).1) vacs) by
      exact hgen ops hops [] (by intro p hp; cases hp)
    intro ops2
    induction ops2 with
    | nil => intro _ vacs hv; simpa using hv
    | cons op rest ih =>
      intro hops2 vacs hv
      simp only [List.foldl_cons]
      obtain ⟨h1, h2, h3⟩ := hops2 op (by simp)
      exact ih (fun o ho => hops2 o (by simp [ho])) _ (hstep _ _ _ _ hv h1 h2 h3)
  · intro vacs n hinv
    cases hg : getKey vacs n with
    | none =>
      simp only [Option.getD_none]
      exact ⟨List.Pairwise.nil, List.Pairwise.nil, List.Pairwise.nil⟩
    | some lst =>
      simp only [Option.getD_some]
      exact mergedInv_sortedDisjoint (hinv (n, lst) (getKey_mem hg))

/-- Witness for C1: a concrete valid insertion into the empty store keeps
the invariant. -/
theorem addRange_merged_invariant_witness :
    storeInv (addVacationRange [] "A".data "2024-06-05".data
      "2024-06-10".data).1 :=
  addRange_merged_invariant.1 [] "A".data "2024-06-05".data "2024-06-10".data
    (by intro p hp; cases hp) (by decide) (by decide) (by decide)

/-- C5.  `addRange` with `start > end` (for a non-empty agent name and
end date, as entered through the date inputs) surfaces the validation
alert and returns the store completely unchanged. -/
theorem addRange_rejects_inverted (vacs : Vacations) (agent s e : Str)
    (hagent : agent ≠ []) (he : e ≠ []) (h : 0 < compareISO s e) :
    addVacationRange vacs agent s e =
      (vacs, some "End date must be on or after start date.".data) := by
  have hs : s ≠ [] := by
    intro hnil
    subst hnil
    cases e with
    | nil => exact he rfl
    | cons c t =>
      rw [show compareISO [] (c :: t) = -1 by simp [compareISO, ltL]] at h
      omega
  unfold addVacationRange
  rw [if_neg (by simp [hagent, hs, he]), if_pos h]

/-- Witness for C5 at the spec's concrete inverted pair of dates. -/
theorem addRange_rejects_inverted_witness :
    addVacationRange [] "A".data "2024-06-10".data "2024-06-05".data =
      ([], some "End date must be on or after start date.".data) :=
  addRange_rejects_inverted [] "A".data "2024-06-10".data "2024-06-05".data
    (by decide) (by decide) (by decide)

/-- C9.  `removeRange` deletes exactly the range at the given position
(leaving every other agent's entry untouched); when the deletion empties
the list the agent's key is removed from the store, so the operation
never leaves a key bound to an empty list. -/
theorem removeRange_spec (vacs : Vacations) (name : Str) (idx : Nat)
    (l : List VacationRange) (hl : getKey vacs name = some l)
    (_hidx : idx < l.length) :
    getKey (removeRange vacs name idx) name =
        (if l.eraseIdx idx = [] then none else some (l.eraseIdx idx)) ∧
      l.eraseIdx idx = l.take idx ++ l.drop (idx + 1) ∧
      (∀ n2, n2 ≠ name → getKey (removeRange vacs name idx) n2 = getKey vacs n2) ∧
      ((∀ p ∈ vacs, p.2 ≠ []) → ∀ p ∈ removeRange vacs name idx, p.2 ≠ []) := by
  unfold removeRange
  rw [hl]
  simp only [Option.getD_some]
  refine ⟨?_, List.eraseIdx_eq_take_drop_succ l idx, ?_, ?_⟩
  · split
    · exact getKey_delKey_self vacs name
    · exact getKey_setKey_self vacs name _
  · intro n2 hne
    split
    · exact getKey_delKey_ne vacs name n2 hne
    · exact getKey_setKey_ne vacs name n2 _ hne
  · intro hno p hp
    split at hp
    · exact hno p (mem_delKey hp)
    · rename_i hnil
      rcases mem_setKey hp with rfl | hpm
      · exact hnil
      · exact hno p hpm

/-- Witness for C9: deleting index 0 of a two-range list keeps the key
with the remaining range. -/
theorem removeRange_spec_witness :
    getKey (removeRange vacExample "A".data 0) "A".data =
      (if ([⟨"2024-06-05".data, "2024-06-10".data⟩,
            ⟨"2024-06-12".data, "2024-06-15".data⟩] : List VacationRange).eraseIdx 0 = []
        then none
        else some (([⟨"2024-06-05".data, "2024-06-10".data⟩,
          ⟨"2024-06-12".data, "2024-06-15".data⟩] : List VacationRange).eraseIdx 0)) :=
  (removeRange_spec vacExample "A".data 0 _ (by decide) (by decide)).1

/-! ### Demand-engine theorems -/

theorem loadPct48_sum (l : List ℚ) : (loadPct48 l).sum = l.sum := by
  induction l with
  | nil => rfl
  | cons v t ih =>
    have h2 : ([v / 2, v / 2] : List ℚ).sum = v := by
      rw [List.sum_cons, List.sum_cons, List.sum_nil]
      ring
    unfold loadPct48 at ih ⊢
    rw [List.flatMap_cons, List.sum_append, ih, h2, List.sum_cons]

theorem loadPct48_getElem_even (l : List ℚ) : ∀ i : Nat,
    (loadPct48 l)[2 * i]? = (l[i]?).map (fun v => v / 2) := by
  induction l with
  | nil => intro i; rfl
  | cons v t ih =>
    intro i
    have hunf : loadPct48 (v :: t) = v / 2 :: v / 2 :: loadPct48 t := by
      unfold loadPct48
      rw [List.flatMap_cons]
      rfl
    cases i with
    | zero =>
      rw [hunf]
      simp
    | succ j =>
      rw [hunf, show (2 * (j + 1) : Nat) = 2 * j + 1 + 1 by omega]
      simp only [List.getElem?_cons_succ]
      exact ih j

/-- C7.  `required48` computes, for each bucket holding demand `v`,
exactly `ceil(v * ahtMin / max(0.1, 30 * occupancy)) + serviceBuffer`;
and for dailyAvg 650, a sum-100 profile carrying 7.2% at hour 15 (3.6%
per half-hour bucket), ahtMin 6 and occupancy 0.85, the peak bucket's
requirement is `6 + serviceBuffer`. -/
theorem required48_formula_and_peak :
    (∀ (hourly : List ℚ) (base aht occ : ℚ) (buf : ℤ) (k : Nat) (v : ℚ),
      (demand48 hourly base)[k]? = some v →
      (required48 hourly base aht occ buf)[k]? =
        some (⌈v * aht / max (0.1 : ℚ) (30 * occ)⌉ + buf)) ∧
    (∀ (hourly : List ℚ) (buf : ℤ),
      hourly.sum = 100 → hourly[15]? = some (7.2 : ℚ) →
      (required48 hourly 650 6 0.85 buf)[30]? = some (6 + buf)) := by
  have hform : ∀ (hourly : List ℚ) (base aht occ : ℚ) (buf : ℤ) (k : Nat) (v : ℚ),
      (demand48 hourly base)[k]? = some v →
      (required48 hourly base aht occ buf)[k]? =
        some (⌈v * aht / max (0.1 : ℚ) (30 * occ)⌉ + buf) := by
    intro hourly base aht occ buf k v hv
    unfold required48
    rw [List.getElem?_map, hv]
    rfl
  refine ⟨hform, ?_⟩
  intro hourly buf hsum h15
  have hload : (loadPct48 hourly)[30]? = some (3.6 : ℚ) := by
    have hev := loadPct48_getElem_even hourly 15
    rw [show (2 * 15 : Nat) = 30 by norm_num] at hev
    rw [hev, h15]
    norm_num
  have hdem : (demand48 hourly 650)[30]? =
      some (650 * ((3.6 : ℚ) / sumGuard ((loadPct48 hourly).sum))) := by
    unfold demand48
    rw [List.getElem?_map, hload]
    rfl
  have hguard : sumGuard ((loadPct48 hourly).sum) = 100 := by
    rw [loadPct48_sum, hsum]
    norm_num [sumGuard]
  rw [hguard] at hdem
  rw [hform hourly 650 6 0.85 buf 30 _ hdem]
  congr 1
  have hmax : max (0.1 : ℚ) (30 * 0.85) = 25.5 := by norm_num
  rw [hmax]
  have hceil : (⌈(650 * ((3.6 : ℚ) / 100) * 6 / 25.5 : ℚ)⌉ : ℤ) = 6 := by
    rw [Int.ceil_eq_iff]
    norm_num
  rw [hceil]

/-- Witness for C7: the explicit sum-100 peak profile with buffer 2. -/
theorem required48_formula_and_peak_witness :
    (required48 peakProfile 650 6 0.85 2)[30]? = some (6 + 2) :=
  required48_formula_and_peak.2 peakProfile 2
    (by norm_num [peakProfile]) (by norm_num [peakProfile])

/-- C10.  For a profile with non-negative percentages and a strictly
positive sum, the 48 per-bucket expected volumes of `demand48` sum
exactly to the day's average volume: normalisation preserves volume. -/
theorem demand48_sum_eq_dailyAvg (hourly : List ℚ) (base : ℚ)
    (_hnn : ∀ p ∈ hourly, 0 ≤ p) (hpos : 0 < hourly.sum) :
    (demand48 hourly base).sum = base := by
  unfold demand48
  have hguard : sumGuard ((loadPct48 hourly).sum) = hourly.sum := by
    rw [loadPct48_sum]
    unfold sumGuard
    rw [if_neg (ne_of_gt hpos)]
  rw [hguard]
  have hrw : (fun p : ℚ => base * (p / hourly.sum)) =
      fun p : ℚ => (base / hourly.sum) * p := by
    funext p
    ring
  rw [hrw]
  have hmul : ((loadPct48 hourly).map fun p => base / hourly.sum * p).sum =
      (base / hourly.sum) * ((loadPct48 hourly).map id).sum := by
    rw [← List.sum_map_mul_left]
    rfl
  rw [hmul, List.map_id, loadPct48_sum]
  field_simp

/-- Witness for C10 on the default Montana profile (sum 92.2). -/
theorem demand48_sum_eq_dailyAvg_witness :
    (demand48 HOURLY_LOAD_PCT_DEFAULT 650).sum = 650 :=
  demand48_sum_eq_dailyAvg HOURLY_LOAD_PCT_DEFAULT 650
    (by norm_num [HOURLY_LOAD_PCT_DEFAULT])
    (by norm_num [HOURLY_LOAD_PCT_DEFAULT])

/-! ### CSV round-trip: digit-string lemmas -/

theorem digitVal_digitChar {n : Nat} (h : n < 10) : digitVal (digitChar n) = n := by
  unfold digitVal
  rw [digitChar_toNat h]
  omega

theorem isDigitB_digitChar {n : Nat} (h : n < 10) : isDigitB (digitChar n) = true := by
  rw [isDigitB, decide_eq_true_eq, digitChar_toNat h]
  omega

theorem digitsToNat_append_single (l : Str) (c : Char) :
    digitsToNat (l ++ [c]) = digitsToNat l * 10 + digitVal c := by
  unfold digitsToNat
  rw [List.foldl_append]
  rfl

theorem natToStrGo_spec : ∀ (fuel n : Nat), n < fuel →
    natToStrGo n fuel ≠ [] ∧ (∀ c ∈ natToStrGo n fuel, isDigitB c = true) ∧
      digitsToNat (natToStrGo n fuel) = n := by
  intro fuel
  induction fuel with
  | zero => intro n h; omega
  | succ f ih =>
    intro n h
    rw [natToStrGo]
    by_cases h10 : n < 10
    · rw [if_pos h10]
      refine ⟨by simp, ?_, ?_⟩
      · intro c hc
        rw [List.mem_singleton] at hc
        subst hc
        exact isDigitB_digitChar h10
      · show digitsToNat ([] ++ [digitChar n]) = n
        rw [digitsToNat_append_single]
        unfold digitsToNat
        rw [List.foldl_nil]
        rw [digitVal_digitChar h10]
        omega
    · rw [if_neg h10]
      have hlt : n / 10 < f := by omega
      obtain ⟨hne, hdig, hval⟩ := ih (n / 10) hlt
      refine ⟨by simp, ?_, ?_⟩
      · intro c hc
        rcases List.mem_append.mp hc with h1 | h2
        · exact hdig c h1
        · rw [List.mem_singleton] at h2
          subst h2
          exact isDigitB_digitChar (by omega)
      · rw [digitsToNat_append_single, hval, digitVal_digitChar (by omega)]
        omega

theorem natToStr_spec (n : Nat) : natToStr n ≠ [] ∧
    (∀ c ∈ natToStr n, isDigitB c = true) ∧ digitsToNat (natToStr n) = n :=
  natToStrGo_spec (n + 1) n (by omega)

theorem digitsToNat_replicate_zero (k : Nat) (l : Str) :
    digitsToNat (List.replicate k '0' ++ l) = digitsToNat l := by
  induction k with
  | zero => rfl
  | succ j ih =>
    rw [List.replicate_succ, List.cons_append]
    show digitsToNat ('0' :: (List.replicate j '0' ++ l)) = digitsToNat l
    unfold digitsToNat at ih ⊢
    rw [List.foldl_cons]
    have h0 : (0 : Nat) * 10 + digitVal '0' = 0 := by decide
    rw [h0]
    exact ih

theorem padStart_digits {l : Str} (h : ∀ c ∈ l, isDigitB c = true) (k : Nat) :
    ∀ c ∈ padStart k '0' l, isDigitB c = true := by
  intro c hc
  rcases List.mem_append.mp hc with h1 | h2
  · rw [List.eq_of_mem_replicate h1]
    decide
  · exact h c h2

theorem padStart_ne_nil {l : Str} (h : l ≠ []) (k : Nat) (c : Char) :
    padStart k c l ≠ [] := by
  unfold padStart
  intro hcon
  rcases List.append_eq_nil.mp hcon with ⟨-, h2⟩
  exact h h2

theorem takeWhile_eq_self_of_all {α : Type} {p : α → Bool} :
    ∀ {l : List α}, (∀ c ∈ l, p c = true) → l.takeWhile p = l := by
  intro l
  induction l with
  | nil => intro _; rfl
  | cons x t ih =>
    intro h
    rw [List.takeWhile_cons, h x (by simp), if_pos rfl]
    rw [ih (fun c hc => h c (by simp [hc]))]

theorem isDigitB_not_space {c : Char} (h : isDigitB c = true) :
    isSpaceJS c = false := by
  rw [isDigitB, decide_eq_true_eq] at h
  rw [isSpaceJS]
  simp only [decide_eq_false_iff_not]
  omega

theorem parseIntJS_digits {l : Str} (hne : l ≠ []) (hd : ∀ c ∈ l, isDigitB c = true) :
    parseIntJS l = some ((digitsToNat l : Int)) := by
  obtain ⟨c, t, rfl⟩ := List.exists_cons_of_ne_nil hne
  have hc := hd c (by simp)
  have hcs : isSpaceJS c = false := isDigitB_not_space hc
  have hcn : 48 ≤ c.toNat ∧ c.toNat ≤ 57 := by
    rw [isDigitB, decide_eq_true_eq] at hc
    exact hc
  have hdrop : (c :: t).dropWhile isSpaceJS = c :: t := by
    rw [List.dropWhile_cons, hcs]
    simp
  have hcm : ¬ (c = '-') := by
    intro hh
    subst hh
    revert hcn
    decide
  have hcp : ¬ (c = '+') := by
    intro hh
    subst hh
    revert hcn
    decide
  have htake : (c :: t).takeWhile isDigitB = c :: t := takeWhile_eq_self_of_all hd
  unfold parseIntJS
  simp only [hdrop, List.headD_cons]
  rw [if_neg (show ¬ (c = '-' ∨ c = '+') from fun hor =>
    hor.elim (fun hh => hcm hh) (fun hh => hcp hh))]
  rw [htake, if_neg hne, decide_eq_false hcm]
  simp

theorem intToStr_ofNat (n : Nat) : intToStr (n : Int) = natToStr n := by
  unfold intToStr
  rw [if_neg (by omega)]
  simp

theorem parseIntJS_padStart_natToStr (k n : Nat) :
    parseIntJS (padStart k '0' (natToStr n)) = some ((n : Int)) := by
  obtain ⟨h1, h2, h3⟩ := natToStr_spec n
  rw [parseIntJS_digits (padStart_ne_nil h1 k '0') (padStart_digits h2 k)]
  unfold padStart
  rw [digitsToNat_replicate_zero, h3]

theorem parseIntJS_natToStr (n : Nat) : parseIntJS (natToStr n) = some ((n : Int)) := by
  obtain ⟨h1, h2, h3⟩ := natToStr_spec n
  rw [parseIntJS_digits h1 h2, h3]

/-! ### CSV round-trip: `toHHMM` / `toMin` -/

theorem intercalate_pair {α : Type} (s a b : List α) :
    List.intercalate s [a, b] = a ++ s ++ b := by
  simp [List.intercalate]

theorem isDigitB_ne_colon {c : Char} (h : isDigitB c = true) : ¬ (c = ':') := by
  intro hh
  subst hh
  revert h
  decide

theorem toHHMM_natCast (n : Nat) :
    toHHMM (n : Int) = padStart 2 '0' (natToStr (n / 60)) ++
      ':' :: padStart 2 '0' (natToStr (n % 60)) := by
  have hfd : ((n : Int)).fdiv 60 = ((n / 60 : Nat) : Int) := by
    rw [Int.fdiv_eq_tdiv (by positivity) (by norm_num)]
    exact_mod_cast (Int.ofNat_tdiv n 60).symm
  have htm : ((n : Int)).tmod 60 = ((n % 60 : Nat) : Int) := by
    rw [Int.tmod_eq_emod (by positivity) (by norm_num)]
    push_cast
    rfl
  unfold toHHMM
  rw [hfd, htm, intToStr_ofNat, intToStr_ofNat]

theorem toMin_pair {s A B : Str} {hh mm : Int} (hne : ¬ (s = []))
    (hsp : s.splitOn ':' = [A, B]) (hA : parseIntJS A = some hh)
    (hB : parseIntJS B = some mm) :
    toMin s = some (max 0 (min 23 hh) * 60 + max 0 (min 59 mm)) := by
  simp only [toMin, if_neg hne, hsp, List.getD_cons_zero, hA, hB]

theorem toMin_toHHMM {m : Int} (h0 : 0 ≤ m) (h1 : m < 1440) :
    toMin (toHHMM m) = some m := by
  lift m to Nat using h0 with n hn
  have hn1 : n < 1440 := by exact_mod_cast h1
  rw [toHHMM_natCast]
  set A := padStart 2 '0' (natToStr (n / 60)) with hA
  set B := padStart 2 '0' (natToStr (n % 60)) with hB
  obtain ⟨hh1, hh2, -⟩ := natToStr_spec (n / 60)
  obtain ⟨hm1, hm2, -⟩ := natToStr_spec (n % 60)
  have hAne : A ≠ [] := padStart_ne_nil hh1 2 '0'
  have hBne : B ≠ [] := padStart_ne_nil hm1 2 '0'
  have hAdig : ∀ c ∈ A, isDigitB c = true := padStart_digits hh2 2
  have hBdig : ∀ c ∈ B, isDigitB c = true := padStart_digits hm2 2
  have hsplit : (A ++ ':' :: B).splitOn ':' = [A, B] := by
    have hsp := List.splitOn_intercalate [A, B] ':' ?hx (by simp)
    case hx =>
      intro l hl
      rcases List.mem_cons.mp hl with rfl | hl2
      · intro hmem
        exact isDigitB_ne_colon (hAdig ':' hmem) rfl
      · rw [List.mem_singleton] at hl2
        subst hl2
        intro hmem
        exact isDigitB_ne_colon (hBdig ':' hmem) rfl
    rw [intercalate_pair] at hsp
    rw [← hsp]
    congr 1
    simp
  have hne : ¬ (A ++ ':' :: B = []) := by
    intro hcon
    rcases List.append_eq_nil.mp hcon with ⟨-, h2⟩
    exact List.cons_ne_nil _ _ h2
  rw [toMin_pair hne hsplit (parseIntJS_padStart_natToStr 2 (n / 60))
    (parseIntJS_padStart_natToStr 2 (n % 60))]
  congr 1
  omega

/-! ### CSV round-trip: trimming and line structure -/

theorem dropWhile_eq_self_of_all {α : Type} {p : α → Bool} {l : List α}
    (h : ∀ c ∈ l, p c = false) : l.dropWhile p = l := by
  cases l with
  | nil => rfl
  | cons x t =>
    rw [List.dropWhile_cons, h x (by simp)]
    simp

theorem trimJS_eq_self_of_nonspace {l : Str} (h : ∀ c ∈ l, isSpaceJS c = false) :
    trimJS l = l := by
  unfold trimJS
  rw [dropWhile_eq_self_of_all h,
    dropWhile_eq_self_of_all (fun c hc => h c (List.mem_reverse.mp hc)),
    List.reverse_reverse]

theorem trimJS_eq_self_of_ends {l : Str}
    (hh : ∀ c, l.head? = some c → isSpaceJS c = false)
    (hl : ∀ c, l.getLast? = some c → isSpaceJS c = false) : trimJS l = l := by
  cases l with
  | nil => rfl
  | cons x t =>
    unfold trimJS
    have h1 : (x :: t).dropWhile isSpaceJS = x :: t := by
      rw [List.dropWhile_cons, hh x rfl]
      simp
    rw [h1]
    cases hr : (x :: t).reverse with
    | nil => exact absurd hr (by simp)
    | cons y r =>
      have hy : (x :: t).getLast? = some y := by
        rw [← List.head?_reverse, hr]
        rfl
      rw [List.dropWhile_cons, hl y hy]
      simp only [Bool.false_eq_true, if_false]
      rw [← hr, List.reverse_reverse]

theorem getLast?_some_mem {α : Type} : ∀ {l : List α} {c : α},
    l.getLast? = some c → c ∈ l := by
  intro l
  induction l with
  | nil => intro c h; exact Option.noConfusion h
  | cons x t ih =>
    intro c h
    cases t with
    | nil =>
      rw [List.getLast?_singleton] at h
      injection h with h2
      subst h2
      simp
    | cons y t2 =>
      rw [List.getLast?_cons_cons] at h
      exact List.mem_cons_of_mem _ (ih h)

theorem stripCR_eq_self {l : Str} (h : '\r' ∉ l) : stripCR l = l := by
  unfold stripCR
  rw [if_neg]
  intro hc
  exact h (getLast?_some_mem hc)

theorem intercalate_cons_cons {α : Type} (s x y : List α) (ys : List (List α)) :
    List.intercalate s (x :: y :: ys) = x ++ s ++ List.intercalate s (y :: ys) := by
  simp [List.intercalate, List.intersperse]

theorem intercalate_singleton {α : Type} (s x : List α) :
    List.intercalate s [x] = x := by
  simp [List.intercalate]

theorem getLast?_intercalate_last (s : Str) : ∀ (ls : List Str) (x : Str),
    ls.getLastD x ≠ [] →
    (List.intercalate s (x :: ls)).getLast? = (ls.getLastD x).getLast? := by
  intro ls
  induction ls with
  | nil =>
    intro x h
    rw [intercalate_singleton]
    rfl
  | cons y ys ih =>
    intro x h
    rw [List.getLastD_cons] at h ⊢
    rw [intercalate_cons_cons, List.getLast?_append, ih y h]
    cases hc : (ys.getLastD y).getLast? with
    | none => exact absurd (List.getLast?_eq_none_iff.mp hc) h
    | some c => rw [Option.or_some]

theorem mem_intercalate {α : Type} {c : α} (s : List α) : ∀ (ls : List (List α)),
    c ∈ List.intercalate s ls → c ∈ s ∨ ∃ l ∈ ls, c ∈ l := by
  intro ls
  induction ls with
  | nil =>
    intro h
    simp [List.intercalate] at h
  | cons x ys ih =>
    cases ys with
    | nil =>
      intro h
      rw [intercalate_singleton] at h
      exact Or.inr ⟨x, by simp, h⟩
    | cons y ys2 =>
      intro h
      rw [intercalate_cons_cons] at h
      rcases List.mem_append.mp h with h1 | h2
      · rcases List.mem_append.mp h1 with h3 | h4
        · exact Or.inr ⟨x, by simp, h3⟩
        · exact Or.inl h4
      · rcases ih h2 with h3 | ⟨l, hl, hc⟩
        · exact Or.inl h3
        · exact Or.inr ⟨l, by simp [hl], hc⟩

/-! ### CSV round-trip: cell well-formedness -/

/-- A cell that survives the splitting and trimming of `parseCSV`. -/
def cellOK (s : Str) : Prop :=
  (',' ∉ s) ∧ ('\n' ∉ s) ∧ ('\r' ∉ s) ∧ trimJS s = s

theorem cellOK_nil : cellOK [] := ⟨by simp, by simp, by simp, rfl⟩

theorem cellOK_of_digit_colon {s : Str}
    (h : ∀ c ∈ s, isDigitB c = true ∨ c = ':') : cellOK s := by
  have htn : ∀ c ∈ s, 48 ≤ c.toNat ∧ c.toNat ≤ 58 := by
    intro c hc
    rcases h c hc with hd | hd
    · rw [isDigitB, decide_eq_true_eq] at hd
      omega
    · subst hd
      decide
  refine ⟨?_, ?_, ?_, ?_⟩
  · intro hc
    have := htn ',' hc
    revert this
    decide
  · intro hc
    have := htn '\n' hc
    revert this
    decide
  · intro hc
    have := htn '\r' hc
    revert this
    decide
  · refine trimJS_eq_self_of_nonspace ?_
    intro c hc
    have := htn c hc
    rw [isSpaceJS]
    simp only [decide_eq_false_iff_not]
    omega

theorem natToStr_cellOK (n : Nat) : cellOK (natToStr n) := by
  obtain ⟨-, h2, -⟩ := natToStr_spec n
  exact cellOK_of_digit_colon (fun c hc => Or.inl (h2 c hc))

theorem toHHMM_chars {m : Int} (h0 : 0 ≤ m) :
    ∀ c ∈ toHHMM m, isDigitB c = true ∨ c = ':' := by
  lift m to Nat using h0 with n hn
  rw [toHHMM_natCast]
  intro c hc
  obtain ⟨-, hq, -⟩ := natToStr_spec (n / 60)
  obtain ⟨-, hr, -⟩ := natToStr_spec (n % 60)
  rcases List.mem_append.mp hc with h1 | h1
  · exact Or.inl (padStart_digits hq 2 c h1)
  · rcases List.mem_cons.mp h1 with rfl | h2
    · exact Or.inr rfl
    · exact Or.inl (padStart_digits hr 2 c h2)

theorem toHHMM_cellOK {m : Int} (h0 : 0 ≤ m) : cellOK (toHHMM m) :=
  cellOK_of_digit_colon (toHHMM_chars h0)

theorem not_mem_of_contains_false {α : Type} [DecidableEq α] {s : List α} {a : α}
    (h : s.contains a = false) : a ∉ s := by
  intro hm
  rw [← List.elem_iff] at hm
  rw [show List.elem a s = s.contains a from rfl, h] at hm
  exact Bool.noConfusion hm

theorem goodNameB_spec {s : Str} (h : goodNameB s = true) : cellOK s ∧ s ≠ [] := by
  unfold goodNameB at h
  simp only [Bool.and_eq_true, decide_eq_true_eq, Bool.not_eq_true'] at h
  obtain ⟨⟨⟨⟨h1, h2⟩, h3⟩, h4⟩, h5⟩ := h
  exact ⟨⟨not_mem_of_contains_false h2, not_mem_of_contains_false h3,
    not_mem_of_contains_false h4, h5⟩, h1⟩

theorem weekdayStr_cellOK (d : Weekday) : cellOK (weekdayStr d) ∧ weekdayStr d ≠ [] := by
  cases d <;> exact ⟨⟨by decide, by decide, by decide, by decide⟩, by decide⟩

theorem goodBlockB_spec {b : DayBlock} (h : goodBlockB b = true) :
    0 ≤ b.startMin ∧ b.startMin < 1440 ∧ 0 ≤ b.endMin ∧ b.endMin < 1440 ∧
      ∃ bm : Int, b.breakMins = some bm ∧ 0 ≤ bm ∧
        ((0 < bm ∧ ∃ bs : Int, b.breakStartMin = some bs ∧ 0 ≤ bs ∧ bs < 1440) ∨
          (bm = 0 ∧ b.breakStartMin = none)) := by
  unfold goodBlockB at h
  simp only [Bool.and_eq_true, decide_eq_true_eq] at h
  obtain ⟨⟨⟨⟨h1, h2⟩, h3⟩, h4⟩, h5⟩ := h
  refine ⟨h1, h2, h3, h4, ?_⟩
  cases hbm : b.breakMins with
  | none =>
    rw [hbm] at h5
    exact absurd h5 (by simp)
  | some bm =>
    cases hbs : b.breakStartMin with
    | none =>
      rw [hbm, hbs] at h5
      simp only [decide_eq_true_eq] at h5
      exact ⟨bm, rfl, by omega, Or.inr ⟨h5, rfl⟩⟩
    | some bs =>
      rw [hbm, hbs] at h5
      simp only [Bool.and_eq_true, decide_eq_true_eq] at h5
      obtain ⟨⟨g1, g2⟩, g3⟩ := h5
      exact ⟨bm, rfl, by omega, Or.inl ⟨g1, bs, rfl, g2, g3⟩⟩

theorem intToStr_nonneg_eq {i : Int} (h : 0 ≤ i) : intToStr i = natToStr i.toNat := by
  unfold intToStr
  rw [if_neg (by omega)]

theorem parseIntJS_intToStr_nonneg {i : Int} (h : 0 ≤ i) :
    parseIntJS (intToStr i) = some i := by
  rw [intToStr_nonneg_eq h, parseIntJS_natToStr, Int.toNat_of_nonneg h]

theorem getLast?_exists_of_ne_nil {α : Type} {l : List α} (h : l ≠ []) :
    ∃ c, l.getLast? = some c ∧ c ∈ l := by
  cases hc : l.getLast? with
  | none => exact absurd (List.getLast?_eq_none_iff.mp hc) h
  | some c => exact ⟨c, rfl, getLast?_some_mem hc⟩

theorem exportRow_spec (roster : Roster) (a : Agent) (d : Weekday)
    (hname : goodNameB a.name = true)
    (hblk : goodBlockB ((rosterLookup roster a.name d).getD DEFAULT_DAY) = true) :
    (∀ f ∈ exportRow roster a d, cellOK f) ∧
      exportRow roster a d ≠ [] ∧
      (exportRow roster a d).getLastD [] ≠ [] ∧
      (∀ c ∈ (exportRow roster a d).getLastD [], isDigitB c = true) := by
  obtain ⟨hc1, hn1⟩ := goodNameB_spec hname
  obtain ⟨hst0, hst1, hen0, hen1, bm, hbm, hbm0, hbrk⟩ := goodBlockB_spec hblk
  set blk := (rosterLookup roster a.name d).getD DEFAULT_DAY with hblkdef
  have hrow : exportRow roster a d =
      [a.name, weekdayStr d, (if blk.active then "1".data else "0".data),
       toHHMM blk.startMin, toHHMM blk.endMin,
       (match blk.breakStartMin with
        | some b => toHHMM b
        | none => []),
       intToStr (jsOr0 blk.breakMins)] := rfl
  have c3 : cellOK (if blk.active then "1".data else "0".data) := by
    by_cases hA : blk.active
    · rw [if_pos hA]
      exact ⟨by decide, by decide, by decide, by decide⟩
    · rw [if_neg hA]
      exact ⟨by decide, by decide, by decide, by decide⟩
  have c6 : cellOK (match blk.breakStartMin with
      | some b => toHHMM b
      | none => []) := by
    rcases hbrk with ⟨-, bs, hbs, hbs0, -⟩ | ⟨-, hbs⟩
    · rw [hbs]
      exact toHHMM_cellOK hbs0
    · rw [hbs]
      exact cellOK_nil
  have h7 : intToStr (jsOr0 blk.breakMins) = natToStr bm.toNat := by
    rw [hbm]
    show intToStr bm = natToStr bm.toNat
    exact intToStr_nonneg_eq hbm0
  have c7 : cellOK (intToStr (jsOr0 blk.breakMins)) := by
    rw [h7]
    exact natToStr_cellOK bm.toNat
  obtain ⟨h7ne, h7dig, -⟩ := natToStr_spec bm.toNat
  have hlastd : (exportRow roster a d).getLastD [] = intToStr (jsOr0 blk.breakMins) := by
    rw [hrow]
    rfl
  refine ⟨?_, by rw [hrow]; exact List.cons_ne_nil _ _, ?_, ?_⟩
  · intro f hf
    rw [hrow] at hf
    simp only [List.mem_cons, List.not_mem_nil, or_false] at hf
    rcases hf with rfl | rfl | rfl | rfl | rfl | rfl | rfl
    · exact hc1
    · exact (weekdayStr_cellOK d).1
    · exact c3
    · exact toHHMM_cellOK hst0
    · exact toHHMM_cellOK hen0
    · exact c6
    · exact c7
  · rw [hlastd, h7]
    exact h7ne
  · rw [hlastd, h7]
    exact h7dig

theorem exportLine_spec (roster : Roster) (a : Agent) (d : Weekday)
    (hname : goodNameB a.name = true)
    (hblk : goodBlockB ((rosterLookup roster a.name d).getD DEFAULT_DAY) = true) :
    ((List.intercalate [','] (exportRow roster a d)).splitOn ',').map trimJS =
        exportRow roster a d ∧
      ('\n' ∉ List.intercalate [','] (exportRow roster a d)) ∧
      ('\r' ∉ List.intercalate [','] (exportRow roster a d)) ∧
      (∀ c, (List.intercalate [','] (exportRow roster a d)).getLast? = some c →
        isSpaceJS c = false) ∧
      List.intercalate [','] (exportRow roster a d) ≠ [] := by
  obtain ⟨hcells, hne, hlastne, hlastdig⟩ := exportRow_spec roster a d hname hblk
  obtain ⟨f1, rest, hR⟩ := List.exists_cons_of_ne_nil hne
  have hgl : (exportRow roster a d).getLastD [] = rest.getLastD f1 := by
    rw [hR, List.getLastD_cons]
  have hglne : rest.getLastD f1 ≠ [] := by
    rw [← hgl]
    exact hlastne
  have hlast : (List.intercalate [','] (exportRow roster a d)).getLast? =
      (rest.getLastD f1).getLast? := by
    rw [hR]
    exact getLast?_intercalate_last [','] rest f1 hglne
  refine ⟨?_, ?_, ?_, ?_, ?_⟩
  · have hsp : (List.intercalate [','] (exportRow roster a d)).splitOn ',' =
        exportRow roster a d :=
      List.splitOn_intercalate (exportRow roster a d) ','
        (fun l hl => (hcells l hl).1) hne
    rw [hsp, List.map_congr_left (fun f hf => (hcells f hf).2.2.2), List.map_id']
  · intro hc
    rcases mem_intercalate [','] (exportRow roster a d) hc with h1 | ⟨l, hl, hcl⟩
    · exact absurd h1 (by decide)
    · exact (hcells l hl).2.1 hcl
  · intro hc
    rcases mem_intercalate [','] (exportRow roster a d) hc with h1 | ⟨l, hl, hcl⟩
    · exact absurd h1 (by decide)
    · exact (hcells l hl).2.2.1 hcl
  · intro c hc
    rw [hlast] at hc
    have hcm : c ∈ (exportRow roster a d).getLastD [] := by
      rw [hgl]
      exact getLast?_some_mem hc
    exact isDigitB_not_space (hlastdig c hcm)
  · intro hcon
    obtain ⟨c, hc, -⟩ := getLast?_exists_of_ne_nil hglne
    rw [hcon] at hlast
    rw [hc] at hlast
    simp at hlast

theorem head?_intercalate_cons_of_ne (s : Str) (x : Str) (ls : List Str)
    (hx : x ≠ []) : (List.intercalate s (x :: ls)).head? = x.head? := by
  obtain ⟨c, t, rfl⟩ := List.exists_cons_of_ne_nil hx
  cases ls with
  | nil => rw [intercalate_singleton]
  | cons y ys =>
    rw [intercalate_cons_cons]
    rfl

/-- The structure of `parseCSV (exportCSV roster agents)`: the canonical
headers and one row object per (agent, weekday) pair. -/
theorem parseCSV_exportCSV (roster : Roster) (agents : List Agent)
    (hname : ∀ a ∈ agents, goodNameB a.name = true)
    (hblk : ∀ a ∈ agents, ∀ d : Weekday,
      goodBlockB ((rosterLookup roster a.name d).getD DEFAULT_DAY) = true) :
    parseCSV (exportCSV roster agents) =
      (csvHeaders,
       agents.flatMap (fun a =>
         WEEKDAYS.map (fun d => buildObj csvHeaders (exportRow roster a d)))) := by
  have hline := fun a (ha : a ∈ agents) (d : Weekday) =>
    exportLine_spec roster a d (hname a ha) (hblk a ha d)
  set H := List.intercalate [','] csvHeaders with hHdef
  set rows := agents.flatMap (fun a =>
    WEEKDAYS.map (fun d => List.intercalate [','] (exportRow roster a d))) with hrows
  have hrowmem : ∀ L ∈ rows, ∃ a ∈ agents, ∃ d : Weekday,
      L = List.intercalate [','] (exportRow roster a d) := by
    intro L hL
    rw [hrows] at hL
    rcases List.mem_flatMap.mp hL with ⟨a, ha, hL2⟩
    rcases List.mem_map.mp hL2 with ⟨d, -, hL3⟩
    exact ⟨a, ha, d, hL3.symm⟩
  have htext : exportCSV roster agents = List.intercalate ['\n'] (H :: rows) := rfl
  have hnm : ∀ L ∈ H :: rows, '\n' ∉ L := by
    intro L hL
    rcases List.mem_cons.mp hL with rfl | hL2
    · decide
    · obtain ⟨a, ha, d, rfl⟩ := hrowmem L hL2
      exact (hline a ha d).2.1
  have hrm : ∀ L ∈ H :: rows, '\r' ∉ L := by
    intro L hL
    rcases List.mem_cons.mp hL with rfl | hL2
    · decide
    · obtain ⟨a, ha, d, rfl⟩ := hrowmem L hL2
      exact (hline a ha d).2.2.1
  have htrim : trimJS (exportCSV roster agents) = exportCSV roster agents := by
    rw [htext]
    refine trimJS_eq_self_of_ends ?_ ?_
    · rw [head?_intercalate_cons_of_ne ['\n'] H rows (by decide)]
      intro c hc
      rw [show H.head? = some 'a' from by decide] at hc
      injection hc with hc2
      subst hc2
      decide
    · intro c hc
      have hlastne : rows.getLastD H ≠ [] := by
        have hmem := List.getLastD_mem_cons rows H
        rcases List.mem_cons.mp hmem with he | he
        · rw [he]
          decide
        · obtain ⟨a, ha, d, hLd⟩ := hrowmem _ he
          rw [hLd]
          exact (hline a ha d).2.2.2.2
      rw [getLast?_intercalate_last ['\n'] rows H hlastne] at hc
      have hmem := List.getLastD_mem_cons rows H
      rcases List.mem_cons.mp hmem with he | he
      · rw [he] at hc
        rw [show H.getLast? = some 's' from by decide] at hc
        injection hc with hc2
        subst hc2
        decide
      · obtain ⟨a, ha, d, hLd⟩ := hrowmem _ he
        rw [hLd] at hc
        exact (hline a ha d).2.2.2.1 c hc
  have hsplit : (List.intercalate ['\n'] (H :: rows)).splitOn '\n' = H :: rows :=
    List.splitOn_intercalate (H :: rows) '\n' hnm (by simp)
  have hlines : splitLines (trimJS (exportCSV roster agents)) = H :: rows := by
    rw [htrim, htext]
    unfold splitLines
    rw [hsplit]
    rw [List.map_congr_left (fun L hL => stripCR_eq_self (hrm L hL)), List.map_id']
  unfold parseCSV
  rw [hlines]
  simp only [List.headD_cons, List.tail_cons]
  have hheaders : (H.splitOn ',').map trimJS = csvHeaders := by decide
  rw [hheaders, hrows, List.map_flatMap]
  refine congrArg (fun z => (csvHeaders, z)) ?_
  refine List.flatMap_congr ?_
  intro a ha
  rw [List.map_map]
  refine List.map_congr_left ?_
  intro d _hd
  show buildObj csvHeaders
      (((List.intercalate [','] (exportRow roster a d)).splitOn ',').map trimJS) =
    buildObj csvHeaders (exportRow roster a d)
  rw [(hline a ha d).1]

/-! ### CSV round-trip: import evaluation -/

theorem strToWeekday_weekdayStr (d : Weekday) : strToWeekday (weekdayStr d) = some d := by
  cases d <;> rfl

theorem mem_WEEKDAYS (d : Weekday) : d ∈ WEEKDAYS := by
  cases d <;> decide

theorem getObj_buildObj (f1 f2 f3 f4 f5 f6 f7 : Str) :
    getObj (buildObj csvHeaders [f1, f2, f3, f4, f5, f6, f7]) "agent".data = f1 ∧
      getObj (buildObj csvHeaders [f1, f2, f3, f4, f5, f6, f7]) "day".data = f2 ∧
      getObj (buildObj csvHeaders [f1, f2, f3, f4, f5, f6, f7]) "active".data = f3 ∧
      getObj (buildObj csvHeaders [f1, f2, f3, f4, f5, f6, f7]) "start".data = f4 ∧
      getObj (buildObj csvHeaders [f1, f2, f3, f4, f5, f6, f7]) "end".data = f5 ∧
      getObj (buildObj csvHeaders [f1, f2, f3, f4, f5, f6, f7]) "break_start".data = f6 ∧
      getObj (buildObj csvHeaders [f1, f2, f3, f4, f5, f6, f7]) "break_minutes".data = f7 :=
  ⟨rfl, rfl, rfl, rfl, rfl, rfl, rfl⟩

theorem importRow_roster (st : List Agent × Roster) (r : List (Str × Str)) :
    (importRow st r).2 =
      match rowKey r with
      | none => st.2
      | some p => setRoster st.2 p.1 p.2 (rowBlk r) := by
  simp only [importRow, rowKey, rowBlk]
  cases hw : strToWeekday (getObj r "day".data) with
  | none => rfl
  | some day =>
    by_cases hn : getObj r "agent".data = []
    · simp [hn]
    · simp [hn]

theorem rosterLookup_setRoster_self (ro : Roster) (n : Str) (d : Weekday)
    (b : DayBlock) : rosterLookup (setRoster ro n d b) n d = some b := by
  unfold rosterLookup setRoster
  rw [getKey_setKey_self]
  exact getKey_setKey_self _ _ _

theorem rosterLookup_setRoster_ne (ro : Roster) (n : Str) (d : Weekday)
    (b : DayBlock) (n2 : Str) (d2 : Weekday) (h : ¬ (n = n2 ∧ d = d2)) :
    rosterLookup (setRoster ro n d b) n2 d2 = rosterLookup ro n2 d2 := by
  by_cases hn : n = n2
  · subst hn
    have hd : ¬ (d2 = d) := fun hd => h ⟨rfl, hd.symm⟩
    unfold rosterLookup setRoster
    rw [getKey_setKey_self]
    show getKey (setKey ((getKey ro n).getD []) d b) d2 = _
    rw [getKey_setKey_ne _ _ _ _ hd]
    cases hg : getKey ro n with
    | none => rfl
    | some w => rfl
  · unfold rosterLookup setRoster
    rw [getKey_setKey_ne _ _ _ _ (fun hh => hn hh.symm)]

theorem rowKey_rowBlk_export (roster : Roster) (a : Agent) (d : Weekday)
    (hname : goodNameB a.name = true)
    (hblk : goodBlockB ((rosterLookup roster a.name d).getD DEFAULT_DAY) = true) :
    rowKey (buildObj csvHeaders (exportRow roster a d)) = some (a.name, d) ∧
      rowBlk (buildObj csvHeaders (exportRow roster a d)) =
        (rosterLookup roster a.name d).getD DEFAULT_DAY := by
  obtain ⟨-, hn1⟩ := goodNameB_spec hname
  obtain ⟨hst0, hst1, hen0, hen1, bm, hbm, hbm0, hbrk⟩ := goodBlockB_spec hblk
  set blk := (rosterLookup roster a.name d).getD DEFAULT_DAY with hblkdef
  have hrow : exportRow roster a d =
      [a.name, weekdayStr d, (if blk.active then "1".data else "0".data),
       toHHMM blk.startMin, toHHMM blk.endMin,
       (match blk.breakStartMin with
        | some b => toHHMM b
        | none => []),
       intToStr (jsOr0 blk.breakMins)] := rfl
  obtain ⟨g1, g2, g3, g4, g5, g6, g7⟩ := getObj_buildObj a.name (weekdayStr d)
    (if blk.active then "1".data else "0".data) (toHHMM blk.startMin)
    (toHHMM blk.endMin)
    (match blk.breakStartMin with
     | some b => toHHMM b
     | none => [])
    (intToStr (jsOr0 blk.breakMins))
  rw [hrow]
  have h7eq : intToStr (jsOr0 blk.breakMins) = natToStr bm.toNat := by
    rw [hbm]
    show intToStr bm = natToStr bm.toNat
    exact intToStr_nonneg_eq hbm0
  have h7ne : natToStr bm.toNat ≠ [] := (natToStr_spec bm.toNat).1
  have hbmor : orElseStr (natToStr bm.toNat) "0".data = natToStr bm.toNat := by
    unfold orElseStr
    rw [if_neg h7ne]
  have hact : (decide ((if blk.active then "1".data else "0".data) = "1".data) ||
      decide (trimJS (List.map Char.toLower
        (if blk.active then "1".data else "0".data)) = "true".data)) = blk.active := by
    cases hA : blk.active <;> decide
  constructor
  · unfold rowKey
    rw [g2, strToWeekday_weekdayStr d]
    show (if getObj (buildObj csvHeaders
        [a.name, weekdayStr d, (if blk.active then "1".data else "0".data),
         toHHMM blk.startMin, toHHMM blk.endMin,
         (match blk.breakStartMin with
          | some b => toHHMM b
          | none => []),
         intToStr (jsOr0 blk.breakMins)]) "agent".data = [] then none
       else some (getObj (buildObj csvHeaders
        [a.name, weekdayStr d, (if blk.active then "1".data else "0".data),
         toHHMM blk.startMin, toHHMM blk.endMin,
         (match blk.breakStartMin with
          | some b => toHHMM b
          | none => []),
         intToStr (jsOr0 blk.breakMins)]) "agent".data, d)) = some (a.name, d)
    rw [g1, if_neg hn1]
  · simp only [rowBlk]
    rw [g3, g4, g5, g6, g7, h7eq, hbmor, parseIntJS_natToStr, Option.getD_some,
      Int.toNat_of_nonneg hbm0, toMin_toHHMM hst0 hst1, toMin_toHHMM hen0 hen1,
      Option.getD_some, Option.getD_some, hact, max_eq_right hbm0]
    rcases hbrk with ⟨hbmpos, bs, hbs, hbs0, hbs1⟩ | ⟨hbm00, hbs⟩
    · have h6eq : (match blk.breakStartMin with
          | some b => toHHMM b
          | none => []) = toHHMM bs := by
        rw [hbs]
      rw [if_pos hbmpos, h6eq, toMin_toHHMM hbs0 hbs1, ← hbs, ← hbm]
    · subst hbm00
      rw [if_neg (lt_irrefl 0), ← hbs, ← hbm]

theorem foldl_import_no_target : ∀ (rs : List (List (Str × Str)))
    (st : List Agent × Roster) (n : Str) (d : Weekday),
    (∀ r ∈ rs, rowKey r ≠ some (n, d)) →
    rosterLookup (rs.foldl importRow st).2 n d = rosterLookup st.2 n d := by
  intro rs
  induction rs with
  | nil => intro st n d _; rfl
  | cons r rest ih =>
    intro st n d h
    rw [List.foldl_cons,
      ih (importRow st r) n d (fun r2 hr2 => h r2 (List.mem_cons_of_mem _ hr2))]
    rw [importRow_roster]
    cases hk : rowKey r with
    | none => rfl
    | some p =>
      obtain ⟨n2, d2⟩ := p
      have hne : ¬ (n2 = n ∧ d2 = d) := by
        intro hp
        exact h r (List.mem_cons_self _ _) (by rw [hk, hp.1, hp.2])
      exact rosterLookup_setRoster_ne st.2 n2 d2 (rowBlk r) n d hne

theorem foldl_import_target : ∀ (rs : List (List (Str × Str)))
    (st : List Agent × Roster) (n : Str) (d : Weekday) (v : DayBlock),
    (∀ r ∈ rs, rowKey r = some (n, d) → rowBlk r = v) →
    (∃ r ∈ rs, rowKey r = some (n, d)) →
    rosterLookup (rs.foldl importRow st).2 n d = some v := by
  intro rs
  induction rs with
  | nil =>
    intro st n d v _ hex
    rcases hex with ⟨r, hr, -⟩
    exact absurd hr (List.not_mem_nil r)
  | cons r rest ih =>
    intro st n d v hall hex
    rw [List.foldl_cons]
    by_cases hrest : ∃ r2 ∈ rest, rowKey r2 = some (n, d)
    · exact ih (importRow st r) n d v
        (fun r2 h2 => hall r2 (List.mem_cons_of_mem _ h2)) hrest
    · push_neg at hrest
      rw [foldl_import_no_target rest (importRow st r) n d hrest]
      rcases hex with ⟨r3, hr3, hk3⟩
      rcases List.mem_cons.mp hr3 with rfl | hmem
      · rw [importRow_roster, hk3, hall r3 (List.mem_cons_self _ _) hk3]
        exact rosterLookup_setRoster_self st.2 n d v
      · exact absurd hk3 (hrest r3 hmem)

/-- **C6** (amended): for CSV-safe agent names and well-formed blocks,
exporting the roster and importing the produced text succeeds and
reproduces the exported block of every (agent, weekday) pair exactly. -/
theorem csv_export_import_roundtrip (roster : Roster) (agents : List Agent)
    (hname : ∀ a ∈ agents, goodNameB a.name = true)
    (hblk : ∀ a ∈ agents, ∀ d : Weekday,
      goodBlockB ((rosterLookup roster a.name d).getD DEFAULT_DAY) = true) :
    ∃ res : List Agent × Roster,
      onImport (exportCSV roster agents) agents roster = some res ∧
      ∀ a ∈ agents, ∀ d : Weekday,
        rosterLookup res.2 a.name d =
          some ((rosterLookup roster a.name d).getD DEFAULT_DAY) := by
  have hparse := parseCSV_exportCSV roster agents hname hblk
  refine ⟨(agents.flatMap (fun a => WEEKDAYS.map
      (fun d => buildObj csvHeaders (exportRow roster a d)))).foldl
        importRow (agents, roster), ?_, ?_⟩
  · simp only [onImport, hparse]
    rw [if_pos (by decide)]
  · intro a ha d
    have hfacts : ∀ r2 ∈ agents.flatMap (fun a2 => WEEKDAYS.map
        (fun d2 => buildObj csvHeaders (exportRow roster a2 d2))),
        rowKey r2 = some (a.name, d) →
          rowBlk r2 = (rosterLookup roster a.name d).getD DEFAULT_DAY := by
      intro r2 hr2 hk
      rcases List.mem_flatMap.mp hr2 with ⟨a2, ha2, hr3⟩
      rcases List.mem_map.mp hr3 with ⟨d2, -, hr4⟩
      subst hr4
      obtain ⟨hk2, hb2⟩ := rowKey_rowBlk_export roster a2 d2 (hname a2 ha2)
        (hblk a2 ha2 d2)
      rw [hk2] at hk
      injection hk with hk3
      injection hk3 with h1 h2
      rw [hb2, h1, h2]
    have hex : ∃ r2 ∈ agents.flatMap (fun a2 => WEEKDAYS.map
        (fun d2 => buildObj csvHeaders (exportRow roster a2 d2))),
        rowKey r2 = some (a.name, d) :=
      ⟨buildObj csvHeaders (exportRow roster a d),
        List.mem_flatMap.mpr ⟨a, ha, List.mem_map.mpr ⟨d, mem_WEEKDAYS d, rfl⟩⟩,
        (rowKey_rowBlk_export roster a d (hname a ha) (hblk a ha d)).1⟩
    exact foldl_import_target _ (agents, roster) a.name d _ hfacts hex

/-- Witness for the C6 round trip on a concrete one-agent roster. -/
theorem csv_export_import_roundtrip_witness :
    ∃ res : List Agent × Roster,
      onImport (exportCSV exampleRoster [exampleAgent]) [exampleAgent]
          exampleRoster = some res ∧
      ∀ a ∈ [exampleAgent], ∀ d : Weekday,
        rosterLookup res.2 a.name d =
          some ((rosterLookup exampleRoster a.name d).getD DEFAULT_DAY) :=
  csv_export_import_roundtrip exampleRoster [exampleAgent] (by decide) (by decide)

/-- **C6** counterexample: a stored block with `breakStartMin = some 780`
but `breakMins = some 0` does not survive the export/import cycle — the
importer discards the break start when the parsed break length is not
positive, so the re-imported block differs from the exported one. -/
theorem csv_export_import_drops_breakStart :
    rosterLookup badRoster "Alice".data Weekday.saturday = some badBlock ∧
      badBlock.breakStartMin = some 780 ∧
      (onImport (exportCSV badRoster [exampleAgent]) [exampleAgent] badRoster).map
          (fun pr => rosterLookup pr.2 "Alice".data Weekday.saturday) =
        some (some { active := true, startMin := 540, endMin := 1020,
                     breakStartMin := none, breakMins := some 0 }) := by
  refine ⟨rfl, rfl, ?_⟩
  decide

end Montana
